import Mathlib

/-!
# Verification of the SysML model parser and graph builder

Shallow embedding of the core parsing / graph-building code of the
repository (`ci/generators/parsing/elements.py`, `parsing/driver.py`,
`graph/builder.py`, `ir/graph.py`, `extractor.py`), together with proofs
about the behaviour claimed in the specification.

Strings are modelled as `List Char` (`Str`) so that all definitions are
executable and proofs can proceed by structural induction.  Python string
operations used by the source (`rsplit("::", 1)`, `startswith`, `strip`,
truthiness of strings and `None`) are modelled by explicit functions below.
-/

namespace SysMLGen

/-- Strings of the modelled program, as lists of characters. -/
abbrev Str := List Char

/-- Shorthand to build a `Str` from a Lean string literal. -/
def str (s : String) : Str := s.toList

/-- Python truthiness of an optional string (`None` and `""` are falsy):
`x or d` returns `x` when `x` is a non-empty string, else `d`. -/
def pyOr (x : Option Str) (d : Str) : Str :=
  match x with
  | none => d
  | some s => if s = [] then d else s

/-- Python `str.strip()` restricted to whitespace. -/
def pyStrip (s : Str) : Str :=
  ((s.dropWhile Char.isWhitespace).reverse.dropWhile Char.isWhitespace).reverse

/-! ## Brace matching (`elements.py::_find_matching_brace`)

The source walks the text from the opening brace, tracking depth, and
returns the index of the first `}` that brings the depth to zero; if the
scan falls off the end it raises `ParsingError` (modelled as `none` /
`Except.error`). -/

/-- One step of `_find_matching_brace`: `l` is the remaining text,
`i` the absolute index of its head, `depth` the current brace depth. -/
def fmbAux : List Char → Nat → Int → Option Nat
  | [], _, _ => none
  | c :: rest, i, depth =>
    if c = '{' then fmbAux rest (i + 1) (depth + 1)
    else if c = '}' then
      if depth - 1 = 0 then some i else fmbAux rest (i + 1) (depth - 1)
    else fmbAux rest (i + 1) depth

/-- `_find_matching_brace(text, open_brace_index)`: scan from
`openIdx` to the end of the text; `none` models the raised `ParsingError`. -/
def findMatchingBrace (cs : List Char) (openIdx : Nat) : Option Nat :=
  fmbAux (cs.drop openIdx) openIdx 0

/-- Depth contribution of one character: `+1` for `{`, `-1` for `}`. -/
def charDepth (c : Char) : Int :=
  if c = '{' then 1 else if c = '}' then -1 else 0

/-- Net brace depth of a piece of text: `+1` per `{`, `-1` per `}`. -/
def netDepth (l : List Char) : Int :=
  (l.map charDepth).sum

/-- Brace balance of `cs` on the index interval `[a, b)`. -/
def balance (cs : List Char) (a b : Nat) : Int :=
  netDepth ((cs.drop a).take (b - a))

/-- The slice `text[a:b]` (Python slicing semantics for `0 ≤ a ≤ b`). -/
def slice (cs : List Char) (a b : Nat) : List Char :=
  (cs.drop a).take (b - a)

/-- Marker for the single fatal error of the parsing layer. -/
inductive ParsingError where
  | unbalancedBraces : ParsingError
deriving DecidableEq

/-- Body extraction for one block: find the matching brace and return the
text strictly between the opening brace and it; an unbalanced block
raises (`Except.error`), as in `_extract_elements`. -/
def extractBlockBody (cs : List Char) (openIdx : Nat) :
    Except ParsingError (List Char) :=
  match findMatchingBrace cs openIdx with
  | some closeIdx => .ok (slice cs (openIdx + 1) closeIdx)
  | none => .error ParsingError.unbalancedBraces

/-- The body-extraction loop of `_extract_elements`, abstracted over the
list of opening-brace indices of the matched declaration headers: the
first failure aborts the whole extraction (the Python exception
propagates), so no partial list is ever produced. -/
def extractBodies (cs : List Char) : List Nat → Except ParsingError (List (List Char))
  | [] => .ok []
  | o :: os =>
    match extractBlockBody cs o with
    | .error e => .error e
    | .ok b =>
      match extractBodies cs os with
      | .error e => .error e
      | .ok bs => .ok (b :: bs)

/-! ## Data model (`parsing/model.py`)

Only the fields consumed by the verified operations are carried; the
remaining kind-specific feature lists of `ModelElement` play no role in
the claims under verification. -/

/-- A parsed attribute declaration (`ModelAttribute`). -/
structure ModelAttribute where
  name : Str
  type : Option Str
deriving DecidableEq, Repr

/-- A parsed declaration (`ModelElement`), restricted to the fields used
by qualified-name resolution, indexing and graph building. -/
structure ModelElement where
  kind : Str
  name : Str
  short_name : Option Str
  file_path : Str
  start_index : Nat
  end_index : Nat
  qualified_name : Str := []
  supertypes : List Str := []
  exhibit_refs : List Str := []
  aliases : List (Str × Str) := []
deriving DecidableEq, Repr

/-! ## Qualified-name resolution (`elements.py::_resolve_qualified_names`)

The source mutates `qualified_name` in place; here the function returns
the updated list.  Python object identity (`c is not element`) is
modelled by pairing every element with its position in the list. -/

/-- The container kinds of `_resolve_qualified_names`. -/
def containerKinds : List Str := [str "package", str "state", str "verification def"]

/-- Span size used as the sort key for enclosing containers. -/
def spanSize (e : ModelElement) : Nat := e.end_index - e.start_index

/-- The filter of the `enclosing` list comprehension: `c` is a container
candidate of `e` iff it is another element (`j ≠ i`), in the same file,
whose span strictly contains `e`'s span
(`c.start_index < e.start_index < e.end_index < c.end_index`). -/
def encloses (j : Nat) (c : ModelElement) (i : Nat) (e : ModelElement) : Bool :=
  j ≠ i && c.file_path = e.file_path && c.start_index < e.start_index
    && e.start_index < e.end_index && e.end_index < c.end_index

/-- The `containers` list: every element of container kind, keeping list
positions as identities. -/
def containerList (elements : List ModelElement) : List (Nat × ModelElement) :=
  elements.enum.filter (fun p => decide (p.2.kind ∈ containerKinds))

/-- The `enclosing` list computed for the element at position `i`. -/
def enclosingOf (elements : List ModelElement) (i : Nat) (e : ModelElement) :
    List (Nat × ModelElement) :=
  (containerList elements).filter (fun p => encloses p.1 p.2 i e)

/-- Descending-span-size order used by `enclosing.sort(..., reverse=True)`.
Python's sort is stable and `enclosing` is in increasing list-position
order, so the stable sort by span size alone coincides with this
sort by (span size descending, position ascending); `List.insertionSort`
is itself stable, so either reading of the key yields the same list. -/
def containerLE (a b : Nat × ModelElement) : Prop :=
  spanSize b.2 < spanSize a.2 ∨ (spanSize b.2 = spanSize a.2 ∧ a.1 ≤ b.1)

instance : DecidableRel containerLE := fun a b => by
  unfold containerLE; infer_instance

/-- The qualified name assigned to the element at position `i`:
the names of the enclosing containers, outermost first, followed by the
element's own name; just the element's name when nothing encloses it. -/
def assignQualifiedName (elements : List ModelElement) (i : Nat) (e : ModelElement) : Str :=
  if ((enclosingOf elements i e).insertionSort containerLE).map (fun p => p.2.name) = []
  then e.name
  else (str "::").intercalate
    (((enclosingOf elements i e).insertionSort containerLE).map (fun p => p.2.name)
      ++ [e.name])

/-- `_resolve_qualified_names(elements)`: set every element's
`qualified_name`. -/
def resolveQualifiedNames (elements : List ModelElement) : List ModelElement :=
  elements.enum.map (fun p => { p.2 with qualified_name := assignQualifiedName elements p.1 p.2 })

/-! ## Splitting a qualified name (`builder.py::_parent_qname`)

`qname.rsplit("::", 1)` splits at the rightmost occurrence of `"::"`;
`_parent_qname` returns the left part, or `None` when no `"::"` occurs. -/

/-- All indices `i` with `q[i] = ':'` and `q[i+1] = ':'`. -/
def sepIdxs (q : Str) : List Nat :=
  (List.range q.length).filter (fun i => q[i]? = some ':' && q[i + 1]? = some ':')

/-- The index of the rightmost occurrence of `"::"` in `q`, if any. -/
def lastSepIdx (q : Str) : Option Nat := (sepIdxs q).getLast?

/-- `q.rsplit("::", 1)` when `"::"` occurs: the pair (part before the last
separator, part after it). -/
def parentLocal (q : Str) : Option (Str × Str) :=
  (lastSepIdx q).map (fun i => (q.take i, q.drop (i + 2)))

/-- `_parent_qname(qname)`. -/
def parentQname (q : Str) : Option Str := (parentLocal q).map Prod.fst

/-! ## Graph data model (`ir/graph.py`)

`GraphNode` keeps the fields consumed by the resolution strategies;
the `doc`, `properties` bag and `source` reference of the Python class
carry no information used by the verified operations, except for the
`unresolved` marker on edges, which is modelled as a dedicated flag. -/

structure GraphNode where
  qname : Str
  kind : Str
  name : Str
  short_name : Option Str
deriving DecidableEq, Repr

/-- A directed labelled edge; `unresolved` models the only property-bag
entry the claims depend on (`properties={"unresolved": True}`). -/
structure GraphEdge where
  source : Str
  target : Str
  label : Str
  unresolved : Bool := false
deriving DecidableEq, Repr

/-- A model graph: `nodes` is the `dict[str, GraphNode]` keyed by qname in
insertion order, `edges` the append-only edge list. -/
structure ModelGraph where
  nodes : List GraphNode
  edges : List GraphEdge
deriving DecidableEq, Repr

/-- `dict` assignment `nodes[qname] = node`: replace in place if the key
is present, else append (Python dicts keep first-insertion order). -/
def dictInsertNode : List GraphNode → GraphNode → List GraphNode
  | [], n => [n]
  | m :: rest, n => if m.qname = n.qname then n :: rest else m :: dictInsertNode rest n

/-- Key membership `qname in graph.nodes`. -/
def hasNode (nodes : List GraphNode) (q : Str) : Bool :=
  nodes.any (fun n => n.qname = q)

/-- `graph.nodes[q]` (first — and, keys being unique, only — binding). -/
def getNode (nodes : List GraphNode) (q : Str) : Option GraphNode :=
  nodes.find? (fun n => n.qname = q)

/-! ## Name resolution (`builder.py::_resolve_name`) -/

/-- Python `node.short_name or node.name` (`or` returns the first truthy
operand: the short name when it is a non-empty string, else the name). -/
def pyShortOrName (n : GraphNode) : Str := pyOr n.short_name n.name

/-- The `while parent:` ancestor walk of `_resolve_name`, testing
`{parent}::{name}` innermost-first.  The walk shortens the qualified name
at every step, so `fuel = q.length` is always sufficient. -/
def resolveScopeWalk (nodes : List GraphNode) (name : Str) : Nat → Str → Option Str
  | 0, _ => none
  | fuel + 1, q =>
    match parentQname q with
    | none => none
    | some p =>
      if p = [] then none
      else if hasNode nodes (p ++ str "::" ++ name) then some (p ++ str "::" ++ name)
      else resolveScopeWalk nodes name fuel p

/-- Step 3 of `_resolve_name`: when the reference contains `"::"`
(equivalently, `rsplit` yields a prefix/local pair), scan the node values
for the first node whose containment parent equals the prefix and whose
`short_name or name` equals the local part — or whose qname equals the
whole reference. -/
def qualifiedScan (nodes : List GraphNode) (name : Str) : Option Str :=
  match parentLocal name with
  | none => none
  | some (pre, loc) =>
    nodes.findSome? (fun node =>
      if parentQname node.qname = some pre && loc = pyShortOrName node then some node.qname
      else if node.qname = name then some node.qname else none)

/-- Step 4 of `_resolve_name`: global scan for a node whose name or short
name equals the reference. -/
def globalScan (nodes : List GraphNode) (name : Str) : Option Str :=
  nodes.findSome? (fun node =>
    if node.name = name || node.short_name = some name then some node.qname else none)

/-- `_resolve_name(graph, context, name)`. -/
def resolveName (nodes : List GraphNode) (ctx : ModelElement) (name : Str) : Option Str :=
  if hasNode nodes name then some name
  else
    match resolveScopeWalk nodes name ctx.qualified_name.length ctx.qualified_name with
    | some r => some r
    | none =>
      match qualifiedScan nodes name with
      | some r => some r
      | none => globalScan nodes name

/-- The `candidates` list of `_resolve_exhibit_target`: qnames of the
nodes whose name or short name equals the reference, in node order. -/
def exhibitCandidates (nodes : List GraphNode) (name : Str) : List Str :=
  (nodes.filter (fun n => n.name = name || n.short_name = some name)).map GraphNode.qname

/-- The `state_candidates` sub-list: candidates whose node is state-kind. -/
def exhibitStateCandidates (nodes : List GraphNode) (name : Str) : List Str :=
  (exhibitCandidates nodes name).filter
    (fun q => (getNode nodes q).map GraphNode.kind = some (str "state"))

/-- `_resolve_exhibit_target(graph, context, name)`: prefer state-kind
candidates among the nodes whose name or short name equals the
reference; fall back to the general chain when there is no candidate. -/
def resolveExhibitTarget (nodes : List GraphNode) (ctx : ModelElement) (name : Str) :
    Option Str :=
  if exhibitCandidates nodes name = [] then resolveName nodes ctx name
  else
    match (exhibitStateCandidates nodes name).head? with
    | some q => some q
    | none => (exhibitCandidates nodes name).head?

/-! ## Graph building (`builder.py::build_model_graph`)

Nodes are added in a first full pass, edges in a second.  Of the edge
emitters only `_add_containment`, `_add_supertypes` and
`_add_exhibit_refs` are modelled: the remaining emitters (transitions,
entry/do actions, satisfy, expose, state ports, performs, verify,
subject) emit edges carrying other labels and are not mentioned by the
verified properties. -/

/-- `_add_node`: projection of an element to its graph node. -/
def projectNode (e : ModelElement) : GraphNode :=
  { qname := e.qualified_name, kind := e.kind, name := e.name, short_name := e.short_name }

/-- The first pass of `build_model_graph`. -/
def buildNodes (elements : List ModelElement) : List GraphNode :=
  elements.foldl (fun ns e => dictInsertNode ns (projectNode e)) []

/-- `_add_containment`: an edge from the parent qname, only when that
parent is truthy (non-empty) and has a node. -/
def containmentEdge (nodes : List GraphNode) (e : ModelElement) : Option GraphEdge :=
  match parentQname e.qualified_name with
  | none => none
  | some p =>
    if p ≠ [] ∧ hasNode nodes p then
      some { source := p, target := e.qualified_name, label := str "contains" }
    else none

/-- `_add_supertypes`: one edge per supertype token; a falsy resolution
result keeps the literal token and marks the edge unresolved. -/
def supertypeEdges (nodes : List GraphNode) (e : ModelElement) : List GraphEdge :=
  e.supertypes.map (fun st =>
    match resolveName nodes e st with
    | some q =>
      if q = [] then
        { source := e.qualified_name, target := st, label := str "supertype", unresolved := true }
      else
        { source := e.qualified_name, target := q, label := str "supertype" }
    | none =>
      { source := e.qualified_name, target := st, label := str "supertype", unresolved := true })

/-- `_add_exhibit_refs` (references are stored already stripped): one edge
per reference, the literal reference standing in when resolution fails. -/
def exhibitEdges (nodes : List GraphNode) (e : ModelElement) : List GraphEdge :=
  if e.kind = str "part" ∨ e.kind = str "part def" then
    e.exhibit_refs.map (fun ref =>
      { source := e.qualified_name,
        target := pyOr (resolveExhibitTarget nodes e ref) ref,
        label := str "exhibit" })
  else []

/-- `build_model_graph(index)`. -/
def buildModelGraph (elements : List ModelElement) : ModelGraph :=
  { nodes := buildNodes elements,
    edges := elements.flatMap (fun e =>
      (containmentEdge (buildNodes elements) e).toList
        ++ supertypeEdges (buildNodes elements) e
        ++ exhibitEdges (buildNodes elements) e) }

/-! ## Graph queries (`ir/graph.py::ModelGraph`) -/

/-- The `_children` adjacency of a qname: targets of its `contains`
edges, in emission order. -/
def childrenMap (g : ModelGraph) (q : Str) : List Str :=
  (g.edges.filter (fun e => e.label = str "contains" && e.source = q)).map GraphEdge.target

/-- The stack loop of `ModelGraph.descendants`.  Python pops from the end
of its stack list; the model keeps the top of the stack at the head, so
every `extend` pushes the reversed child list.  The loop has no visited
set, so it is modelled with explicit fuel; `none` means the fuel ran out
before the loop finished. -/
def descendantsAux (g : ModelGraph) (kindFilter : Option Str) :
    Nat → List Str → List GraphNode → Option (List GraphNode)
  | _, [], acc => some acc.reverse
  | 0, _ :: _, _ => none
  | fuel + 1, cq :: stack, acc =>
    match getNode g.nodes cq with
    | none => descendantsAux g kindFilter fuel stack acc
    | some node =>
      let keep : Bool := match kindFilter with
        | none => true
        | some k => node.kind = k
      descendantsAux g kindFilter fuel ((childrenMap g cq).reverse ++ stack)
        (if keep then node :: acc else acc)

/-- `ModelGraph.descendants(qname, kind)` with explicit fuel. -/
def descendantsFuel (g : ModelGraph) (kindFilter : Option Str) (fuel : Nat) (q : Str) :
    Option (List GraphNode) :=
  descendantsAux g kindFilter fuel ((childrenMap g q).reverse) []

/-- Reachability along `contains` edges, as named by the specification. -/
inductive ReachableViaContains (g : ModelGraph) (root : Str) : Str → Prop where
  | child : ∀ {c}, c ∈ childrenMap g root → ReachableViaContains g root c
  | step : ∀ {p c}, ReachableViaContains g root p → c ∈ childrenMap g p →
      ReachableViaContains g root c

/-! Termination measure for the `descendants` stack loop: every
`contains` edge strictly lengthens the qualified name, so a potential
that decreases at every iteration bounds the number of loop steps. -/

/-- Largest target length among all edges of the graph. -/
def graphMaxTargetLen (g : ModelGraph) : Nat :=
  (g.edges.map (fun e => e.target.length)).foldr max 0

/-- Potential of one stack entry. -/
def descPotential (g : ModelGraph) (q : Str) : Nat :=
  (g.edges.length + 2) ^ (graphMaxTargetLen g + 1 - q.length)

/-- Potential of a whole stack. -/
def stackPotential (g : ModelGraph) (stack : List Str) : Nat :=
  (stack.map (descPotential g)).sum

/-! ## Attribute extraction (`elements.py::_extract_elements`, body scan)

The two regex scans of a block body are abstracted by their match lists:
each match contributes `(name, raw_type)`.  The first loop appends every
semicolon-terminated match; only then is the `seen` name set built, and
the second loop (doc-terminated form) skips names already seen and
threads the set through its own appends. -/

/-- `ModelAttribute(name=..., type=raw_type.strip() or None)`. -/
def mkAttr (p : Str × Str) : ModelAttribute :=
  { name := p.1, type := let t := pyStrip p.2; if t = [] then none else some t }

/-- The second attribute loop with its `seen` set. -/
def attrLoop2 (seen : List Str) : List (Str × Str) → List ModelAttribute
  | [] => []
  | p :: rest =>
    if p.1 ∈ seen then attrLoop2 seen rest
    else mkAttr p :: attrLoop2 (p.1 :: seen) rest

/-- The attribute list extracted from one body, given the two match
lists (semicolon-terminated first, doc-terminated second). -/
def extractAttributes (semis nosemis : List (Str × Str)) : List ModelAttribute :=
  semis.map mkAttr ++ attrLoop2 (semis.map Prod.fst) nosemis

/-! ## Name indices (`driver.py::parse_model_directory`) -/

/-- Python truthiness of `element.short_name`. -/
def shortTruthy (e : ModelElement) : Bool :=
  match e.short_name with
  | some s => s ≠ []
  | none => false

/-- The `by_name` index at key `k`: every element is appended under its
name, and additionally under its short name when that is truthy. -/
def byName (elements : List ModelElement) (k : Str) : List ModelElement :=
  elements.flatMap (fun e =>
    (if e.name = k then [e] else []) ++
      (if shortTruthy e ∧ e.short_name = some k then [e] else []))

/-- The `by_short_name` index at key `k`. -/
def byShortName (elements : List ModelElement) (k : Str) : List ModelElement :=
  elements.flatMap (fun e =>
    if shortTruthy e ∧ e.short_name = some k then [e] else [])

/-! ## Alias table (`driver.py`) and alias expansion (`extractor.py`) -/

/-- The alias registrations in element order:
`alias_map[f"{package_qname}::{alias}"] = target`. -/
def aliasRegistrations (elements : List ModelElement) : List (Str × Str) :=
  elements.flatMap (fun e =>
    if e.kind = str "package" ∧ e.aliases ≠ [] then
      e.aliases.map (fun p => (e.qualified_name ++ str "::" ++ p.1, p.2))
    else [])

/-- `dict` assignment on a string-keyed association list. -/
def dictInsertStr : List (Str × Str) → Str × Str → List (Str × Str)
  | [], p => [p]
  | q :: rest, p => if q.1 = p.1 then p :: rest else q :: dictInsertStr rest p

/-- The `alias_map` dict built by `parse_model_directory`. -/
def buildAliasMap (elements : List ModelElement) : List (Str × Str) :=
  (aliasRegistrations elements).foldl dictInsertStr []

/-- One key's match test in `_expand_alias_ref`: the key equals the
reference, or is followed by `"::"` in it. -/
def aliasKeyMatches (key ref : Str) : Bool :=
  ref = key || (key ++ str "::").isPrefixOf ref

/-- Descending key length, the order of
`sorted(alias_map.keys(), key=len, reverse=True)` (both that sort and
`List.insertionSort` are stable). -/
def keyLenGE (a b : Str) : Prop := b.length ≤ a.length

instance : DecidableRel keyLenGE := fun a b => by unfold keyLenGE; infer_instance

instance : IsTotal Str keyLenGE :=
  ⟨fun a b => by unfold keyLenGE; omega⟩

instance : IsTrans Str keyLenGE :=
  ⟨fun a b c hab hbc => by unfold keyLenGE at *; omega⟩

/-- `_expand_alias_ref(ref, model_index)`: longest-key prefix
substitution; the reference is returned unchanged when no key matches. -/
def expandAliasRef (aliasMap : List (Str × Str)) (ref : Str) : Str :=
  if aliasMap = [] then ref
  else
    match ((aliasMap.map Prod.fst).insertionSort keyLenGE).find?
        (fun k => aliasKeyMatches k ref) with
    | none => ref
    | some k =>
      match aliasMap.lookup k with
      | none => ref
      | some t => if ref = k then t else t ++ ref.drop k.length

/-! ## Specification-side definitions

Declarative counterparts used to state the properties: the brace-matching
specification, the ancestor chain of a qualified name, and the resolution
chain exactly as the specification words it. -/

/-- Specification of `fmbAux`: the result is `i` plus the offset of the
first `}` at which the running depth (started at `d`) reaches zero. -/
def FmbSpec (l : List Char) (i : Nat) (d : Int) (j : Nat) : Prop :=
  ∃ k, k < l.length ∧ j = i + k ∧ l[k]? = some '}' ∧ d + netDepth (l.take (k + 1)) = 0 ∧
    ∀ k' < k, ¬(l[k']? = some '}' ∧ d + netDepth (l.take (k' + 1)) = 0)

/-- `j` is the balancing close brace of the block opened at `o`: it is a
`}`, the balance of `[o, j]` is zero, and the balance of every proper
prefix of the block stays positive. -/
def IsBalancingClose (cs : List Char) (o j : Nat) : Prop :=
  o < j ∧ cs[j]? = some '}' ∧ balance cs o (j + 1) = 0 ∧
    ∀ m, m ≤ j → o < m → 0 < balance cs o m

instance (cs : List Char) (o j : Nat) : Decidable (IsBalancingClose cs o j) := by
  unfold IsBalancingClose; infer_instance

/-- The chain of successive truthy parents of a qualified name,
innermost first (fuel-based; `q.length` is always enough fuel). -/
def ancestorsAux : Nat → Str → List Str
  | 0, _ => []
  | fuel + 1, q =>
    match parentQname q with
    | none => []
    | some p => if p = [] then [] else p :: ancestorsAux fuel p

/-- The ancestor chain of a qualified name. -/
def ancestors (q : Str) : List Str := ancestorsAux q.length q

/-- Declarative reading of step 2 of the resolution chain: the first
ancestor `a` (innermost first) with a node named `{a}::{name}`. -/
def scopeWalkSpec (nodes : List GraphNode) (name : Str) (q : Str) : Option Str :=
  (ancestors q).findSome? (fun a =>
    let candidate := a ++ str "::" ++ name
    if hasNode nodes candidate then some candidate else none)

/-- Step 3 as the specification words it: a node whose containment-parent
qname equals the prefix and whose short name **or** name equals the local
part (a genuine disjunction, unlike the source's
`local == (node.short_name or node.name)`). -/
def qualifiedScanClaimed (nodes : List GraphNode) (name : Str) : Option Str :=
  match parentLocal name with
  | none => none
  | some pl =>
    nodes.findSome? (fun node =>
      if parentQname node.qname = some pl.1
          && (node.short_name = some pl.2 || node.name = pl.2) then some node.qname
      else none)

/-- The resolution chain exactly as the specification describes it,
differing from `resolveName` only in step 3. -/
def resolveNameClaimed (nodes : List GraphNode) (ctx : ModelElement) (name : Str) :
    Option Str :=
  if hasNode nodes name then some name
  else
    match scopeWalkSpec nodes name ctx.qualified_name with
    | some r => some r
    | none =>
      match qualifiedScanClaimed nodes name with
      | some r => some r
      | none => globalScan nodes name

/-- Strictly-descending span size: the order in which properly nested
containers appear after sorting (vacuously antisymmetric). -/
def spanGT (a b : Nat × ModelElement) : Prop :=
  spanSize b.2 < spanSize a.2

/-! ## Concrete instances used by the counterexamples and witnesses

`cexA`/`cexB`/`cexE` are the three elements extracted from the source text

```
package A {
state <
state def E;
}> B {
}
```

(character indices: `package A`'s header starts at 0 and its body's brace
at 10 closes at the `}` at index 33 — the first `}` after it, which sits
inside the short-name bracket `<...>` of the `state ... B` header
spanning indices 12–38; `B`'s own brace at 38 closes at 40; the
standalone `state def E;` declaration spans indices 20–32).  The spans of
`A` and `B` overlap without nesting, and both strictly contain `E`. -/

def cexA : ModelElement :=
  { kind := str "package", name := str "A", short_name := none,
    file_path := str "model.sysml", start_index := 0, end_index := 33 }

def cexB : ModelElement :=
  { kind := str "state", name := str "B", short_name := none,
    file_path := str "model.sysml", start_index := 12, end_index := 40 }

def cexE : ModelElement :=
  { kind := str "state", name := str "E", short_name := none,
    file_path := str "model.sysml", start_index := 20, end_index := 32 }

/-- Witness elements: a package strictly containing a part. -/
def witP : ModelElement :=
  { kind := str "package", name := str "P", short_name := none,
    file_path := str "m.sysml", start_index := 0, end_index := 100 }

def witE : ModelElement :=
  { kind := str "part", name := str "E", short_name := none,
    file_path := str "m.sysml", start_index := 10, end_index := 20 }

/-- Counterexample node for the name-resolution chain: its parent qname is
`P`, its name is `local`, but its short name is the non-empty `S`. -/
def cexNode : GraphNode :=
  { qname := str "P::A", kind := str "part", name := str "local",
    short_name := some (str "S") }

/-- A context element whose qualified name has no ancestors. -/
def cexCtx : ModelElement :=
  { kind := str "part", name := str "C", short_name := none,
    file_path := str "m.sysml", start_index := 0, end_index := 1,
    qualified_name := str "C" }

/-- Witness elements for the graph claims: a package `P` containing a
part `Q` (with one resolvable and one unresolvable supertype and an
exhibit reference), plus a state and a part sharing the name `S`. -/
def gwP : ModelElement :=
  { kind := str "package", name := str "P", short_name := none,
    file_path := str "m.sysml", start_index := 0, end_index := 100,
    qualified_name := str "P" }

def gwQ : ModelElement :=
  { kind := str "part", name := str "Q", short_name := none,
    file_path := str "m.sysml", start_index := 10, end_index := 50,
    qualified_name := str "P::Q",
    supertypes := [str "P", str "Missing"],
    exhibit_refs := [str "S", str "NoSuchRef"] }

def gwSpart : ModelElement :=
  { kind := str "part", name := str "S", short_name := none,
    file_path := str "m.sysml", start_index := 60, end_index := 70,
    qualified_name := str "P::S" }

def gwSstate : ModelElement :=
  { kind := str "state", name := str "S", short_name := none,
    file_path := str "m.sysml", start_index := 80, end_index := 90,
    qualified_name := str "P::T" }

/-- The witness element list for the graph claims. -/
def gwElems : List ModelElement := [gwP, gwQ, gwSpart, gwSstate]

/-- Witness elements for the index/alias claims. -/
def iwA : ModelElement :=
  { kind := str "package", name := str "PackA", short_name := some (str "S"),
    file_path := str "m.sysml", start_index := 0, end_index := 10,
    qualified_name := str "PackA", aliases := [(str "Q", str "Target")] }

def iwB : ModelElement :=
  { kind := str "part", name := str "PartB", short_name := none,
    file_path := str "m.sysml", start_index := 20, end_index := 30,
    qualified_name := str "PackA::PartB" }

/-! # Theorems

General helper lemmas first, then one main theorem per verified claim,
each with its witness or counterexample. -/

theorem mem_sepIdxs {q : Str} {i : Nat} (h : i ∈ sepIdxs q) :
    q[i]? = some ':' ∧ q[i + 1]? = some ':' := by
  have h' := List.of_mem_filter h
  simpa [Bool.and_eq_true, decide_eq_true_eq] using h'

/-- Decomposition produced by the rightmost split: the original string is
`parent ++ "::" ++ local`. -/
theorem parentLocal_decomp {q p l : Str} (h : parentLocal q = some (p, l)) :
    q = p ++ str "::" ++ l := by
  unfold parentLocal at h
  cases hls : lastSepIdx q with
  | none => simp [hls] at h
  | some i =>
    simp only [hls, Option.map_some', Option.some.injEq, Prod.mk.injEq] at h
    obtain ⟨hp, hl⟩ := h
    have hmem : i ∈ sepIdxs q := by
      have hin : i ∈ (sepIdxs q).getLast? := by rw [Option.mem_def]; exact hls
      obtain ⟨hne, rfl⟩ := List.mem_getLast?_eq_getLast hin
      exact List.getLast_mem hne
    obtain ⟨h0, h1⟩ := mem_sepIdxs hmem
    obtain ⟨hi, hq0⟩ := List.getElem?_eq_some.mp h0
    obtain ⟨hi1, hq1⟩ := List.getElem?_eq_some.mp h1
    have hdrop : q.drop i = ':' :: ':' :: q.drop (i + 2) := by
      rw [List.drop_eq_getElem_cons hi, List.drop_eq_getElem_cons hi1, hq0, hq1]
    subst hp hl
    calc q = q.take i ++ q.drop i := (List.take_append_drop i q).symm
    _ = q.take i ++ (str "::" ++ q.drop (i + 2)) := by rw [hdrop]; rfl
    _ = q.take i ++ str "::" ++ q.drop (i + 2) := by rw [List.append_assoc]

/-- Variant of the decomposition for `_parent_qname`. -/
theorem parentQname_decomp {q p : Str} (h : parentQname q = some p) :
    ∃ l, parentLocal q = some (p, l) ∧ q = p ++ str "::" ++ l := by
  unfold parentQname at h
  cases hpl : parentLocal q with
  | none => simp [hpl] at h
  | some pl =>
    obtain ⟨p', l⟩ := pl
    simp only [hpl, Option.map_some', Option.some.injEq] at h
    subst h
    exact ⟨l, rfl, parentLocal_decomp hpl⟩

/-- The parent is strictly shorter than the qualified name. -/
theorem parentQname_length {q p : Str} (h : parentQname q = some p) :
    p.length < q.length := by
  obtain ⟨l, _, hq⟩ := parentQname_decomp h
  rw [hq]
  simp [str]

/-! ## Claim C9 — the `by_name` index also covers short names -/

/-- C9: for every element with a non-empty short name `s`, the element is
appended both to `by_short_name[s]` and to `by_name[s]`; elements whose
short name is falsy (`None` or empty) appear in `by_name` only under
their name. -/
theorem by_name_covers_short_names :
    (∀ (elements : List ModelElement) (e : ModelElement) (s : Str),
      e ∈ elements → e.short_name = some s → s ≠ [] →
        e ∈ byShortName elements s ∧ e ∈ byName elements s) ∧
    (∀ (elements : List ModelElement) (e : ModelElement),
      e ∈ elements → shortTruthy e = false →
        ∀ k : Str, e ∈ byName elements k → k = e.name) := by
  constructor
  · intro elements e s he hs hsne
    have hst : shortTruthy e = true := by
      simp [shortTruthy, hs, hsne]
    constructor
    · unfold byShortName
      rw [List.mem_flatMap]
      exact ⟨e, he, by simp [hst, hs]⟩
    · unfold byName
      rw [List.mem_flatMap]
      refine ⟨e, he, List.mem_append.mpr (Or.inr ?_)⟩
      simp [hst, hs]
  · intro elements e _he hst k hk
    unfold byName at hk
    rw [List.mem_flatMap] at hk
    obtain ⟨e', _he', hmem⟩ := hk
    rcases List.mem_append.mp hmem with h | h
    · by_cases hc : e'.name = k
      · rw [if_pos hc, List.mem_singleton] at h
        subst h
        exact hc.symm
      · rw [if_neg hc] at h
        exact absurd h (List.not_mem_nil e)
    · by_cases hc : shortTruthy e' = true ∧ e'.short_name = some k
      · rw [if_pos hc, List.mem_singleton] at h
        subst h
        exact absurd hc.1 (by simp [hst])
      · rw [if_neg hc] at h
        exact absurd h (List.not_mem_nil e)

/-- Witness for C9 at a concrete index: `iwA` has short name `S` and is
found under `S` in both indices; `iwB` has no short name and is only
under its own name. -/
theorem by_name_covers_short_names_witness :
    (iwA ∈ byShortName [iwA, iwB] (str "S") ∧ iwA ∈ byName [iwA, iwB] (str "S")) ∧
      (∀ k : Str, iwB ∈ byName [iwA, iwB] k → k = iwB.name) :=
  ⟨by_name_covers_short_names.1 [iwA, iwB] iwA (str "S") (by decide) (by decide) (by decide),
   fun k => by_name_covers_short_names.2 [iwA, iwB] iwB (by decide) (by decide) k⟩

/-! ## Claim C8 — attribute de-duplication (corrected)

The `seen` set is only built *after* the semicolon-terminated scan, so
two semicolon-terminated declarations sharing a name are **both** kept;
de-duplication applies only to the doc-terminated scan. -/

/-- Counterexample to C8 as stated: the body
`attribute x : A;\nattribute x : B;` produces the two semicolon-form
matches `(x, A)` and `(x, B)`, and both occurrences of `x` survive. -/
theorem attribute_dedup_counterexample :
    (extractAttributes [(str "x", str "A"), (str "x", str "B")] []).map ModelAttribute.name
        = [str "x", str "x"] ∧
      ¬ ((extractAttributes [(str "x", str "A"), (str "x", str "B")] []).map
          ModelAttribute.name).Nodup := by
  decide

theorem attrLoop2_spec (nosemis : List (Str × Str)) :
    ∀ seen : List Str,
      ((attrLoop2 seen nosemis).map ModelAttribute.name).Nodup ∧
        ∀ a ∈ attrLoop2 seen nosemis, a.name ∉ seen ∧ ∃ p ∈ nosemis, mkAttr p = a := by
  induction nosemis with
  | nil => intro seen; simp [attrLoop2]
  | cons p rest ih =>
    intro seen
    by_cases hp : p.1 ∈ seen
    · rw [attrLoop2, if_pos hp]
      obtain ⟨ihn, ihm⟩ := ih seen
      refine ⟨ihn, fun a ha => ?_⟩
      obtain ⟨hns, q, hq, hqa⟩ := ihm a ha
      exact ⟨hns, q, List.mem_cons_of_mem p hq, hqa⟩
    · rw [attrLoop2, if_neg hp]
      obtain ⟨ihn, ihm⟩ := ih (p.1 :: seen)
      constructor
      · rw [List.map_cons, List.nodup_cons]
        refine ⟨fun hmem => ?_, ihn⟩
        obtain ⟨a, ha, hname⟩ := List.mem_map.mp hmem
        have := (ihm a ha).1
        exact this (hname ▸ List.mem_cons_self _ _)
      · intro a ha
        rcases List.mem_cons.mp ha with rfl | ha'
        · exact ⟨hp, p, List.mem_cons_self _ _, rfl⟩
        · obtain ⟨hns, q, hq, hqa⟩ := ihm a ha'
          exact ⟨fun hc => hns (List.mem_cons_of_mem _ hc), q,
            List.mem_cons_of_mem p hq, hqa⟩

/-- C8 (amended): the semicolon-terminated matches are all kept, in
order, duplicates included; de-duplication applies to the doc-terminated
form only — every doc-terminated occurrence whose name was already seen
(in either form) is discarded, so the doc-terminated part of the result
repeats no name and shares none with the semicolon-terminated part. -/
theorem attribute_dedup_amended (semis nosemis : List (Str × Str)) :
    (extractAttributes semis nosemis).take semis.length = semis.map mkAttr ∧
      (((extractAttributes semis nosemis).drop semis.length).map ModelAttribute.name).Nodup ∧
      ∀ a ∈ (extractAttributes semis nosemis).drop semis.length,
        a.name ∉ semis.map Prod.fst ∧ ∃ p ∈ nosemis, mkAttr p = a := by
  have hlen : (semis.map mkAttr).length = semis.length := List.length_map _ _
  have htake : (extractAttributes semis nosemis).take semis.length = semis.map mkAttr := by
    rw [extractAttributes, ← hlen, List.take_left]
  have hdrop : (extractAttributes semis nosemis).drop semis.length
      = attrLoop2 (semis.map Prod.fst) nosemis := by
    rw [extractAttributes, ← hlen, List.drop_left]
  obtain ⟨hn, hm⟩ := attrLoop2_spec nosemis (semis.map Prod.fst)
  exact ⟨htake, by rw [hdrop]; exact hn, by rw [hdrop]; exact hm⟩

/-! ## Claim C2 — brace matching -/

theorem netDepth_nil : netDepth [] = 0 := rfl

theorem netDepth_cons (c : Char) (l : List Char) :
    netDepth (c :: l) = charDepth c + netDepth l := by
  simp [netDepth]

theorem netDepth_append (a b : List Char) :
    netDepth (a ++ b) = netDepth a + netDepth b := by
  simp [netDepth]

theorem charDepth_ge (c : Char) : -1 ≤ charDepth c := by
  unfold charDepth
  split
  · omega
  · split <;> omega

theorem charDepth_eq_neg_one {c : Char} (h : charDepth c = -1) : c = '}' := by
  unfold charDepth at h
  split at h
  · omega
  · split at h
    · assumption
    · omega

theorem fmbSpec_cons {c : Char} {rest : List Char} {i : Nat} {d : Int} {j : Nat}
    (h0 : ¬(c = '}' ∧ d + charDepth c = 0)) :
    FmbSpec (c :: rest) i d j ↔ FmbSpec rest (i + 1) (d + charDepth c) j := by
  constructor
  · rintro ⟨k, hk, hj, hch, hbal, hmin⟩
    cases k with
    | zero =>
      exact absurd ⟨by simpa using hch, by simpa [netDepth_cons, netDepth_nil] using hbal⟩ h0
    | succ k' =>
      refine ⟨k', by simpa using hk, by omega, by simpa using hch, ?_, ?_⟩
      · rw [List.take_succ_cons, netDepth_cons] at hbal
        omega
      · intro m hm hcontra
        refine hmin (m + 1) (by omega) ⟨by simpa using hcontra.1, ?_⟩
        rw [List.take_succ_cons, netDepth_cons]
        have := hcontra.2
        omega
  · rintro ⟨k, hk, hj, hch, hbal, hmin⟩
    refine ⟨k + 1, by simpa using hk, by omega, by simpa using hch, ?_, ?_⟩
    · rw [List.take_succ_cons, netDepth_cons]
      omega
    · intro m hm
      cases m with
      | zero =>
        intro hcontra
        exact h0 ⟨by simpa using hcontra.1,
          by simpa [netDepth_cons, netDepth_nil] using hcontra.2⟩
      | succ m' =>
        intro hcontra
        refine hmin m' (by omega) ⟨by simpa using hcontra.1, ?_⟩
        have h2 := hcontra.2
        rw [List.take_succ_cons, netDepth_cons] at h2
        omega

theorem fmbSpec_here {c : Char} {rest : List Char} {i : Nat} {d : Int}
    (hc : c = '}') (hd : d + charDepth c = 0) (j : Nat) :
    FmbSpec (c :: rest) i d j ↔ j = i := by
  constructor
  · rintro ⟨k, hk, hj, hch, hbal, hmin⟩
    cases k with
    | zero => omega
    | succ k' =>
      exact absurd ⟨by simp [hc], by simpa [netDepth_cons, netDepth_nil] using hd⟩
        (hmin 0 (by omega))
  · rintro rfl
    exact ⟨0, by simp, rfl, by simp [hc], by simpa [netDepth_cons, netDepth_nil] using hd,
      by omega⟩

theorem fmbAux_some_iff : ∀ (l : List Char) (i : Nat) (d : Int) (j : Nat),
    fmbAux l i d = some j ↔ FmbSpec l i d j := by
  intro l
  induction l with
  | nil =>
    intro i d j
    simp [fmbAux, FmbSpec]
  | cons c rest ih =>
    intro i d j
    by_cases hc : c = '{'
    · have hcd : charDepth c = 1 := by rw [hc]; decide
      rw [fmbAux, if_pos hc, ih,
        fmbSpec_cons (by rw [hc]; rintro ⟨h, -⟩; cases h), hcd]
    · by_cases hc2 : c = '}'
      · have hcd : charDepth c = -1 := by rw [hc2]; decide
        by_cases hd : d - 1 = 0
        · rw [fmbAux, if_neg hc, if_pos hc2, if_pos hd,
            fmbSpec_here hc2 (by omega)]
          simp [eq_comm]
        · have hone : d + (-1) = d - 1 := by omega
          rw [fmbAux, if_neg hc, if_pos hc2, if_neg hd, ih,
            fmbSpec_cons (by rw [hcd]; rintro ⟨-, h⟩; omega), hcd, hone]
      · have hcd : charDepth c = 0 := by simp [charDepth, hc, hc2]
        rw [fmbAux, if_neg hc, if_neg hc2, ih,
          fmbSpec_cons (by rintro ⟨h, -⟩; exact hc2 h), hcd, add_zero]

/-- One depth step of the balance, reading the character at `m`. -/
theorem balance_succ {cs : List Char} {o m : Nat} {c : Char}
    (hom : o ≤ m) (hc : cs[m]? = some c) :
    balance cs o (m + 1) = balance cs o m + charDepth c := by
  unfold balance
  have h1 : m + 1 - o = (m - o) + 1 := by omega
  have h2 : (cs.drop o)[m - o]? = some c := by
    rw [List.getElem?_drop]
    have : o + (m - o) = m := by omega
    rw [this, hc]
  rw [h1, List.take_succ, h2, netDepth_append]
  simp [netDepth_cons, netDepth_nil]

theorem balance_self (cs : List Char) (o : Nat) : balance cs o o = 0 := by
  unfold balance
  simp [netDepth_nil]

/-- While no balancing `}` has been met, the depth of a block opened by a
`{` stays positive. -/
theorem balance_pos_of_min {cs : List Char} {o j : Nat}
    (hopen : cs[o]? = some '{') (hjlen : j < cs.length)
    (hmin : ∀ m, o ≤ m → m < j → ¬(cs[m]? = some '}' ∧ balance cs o (m + 1) = 0)) :
    ∀ m, o < m → m ≤ j → 0 < balance cs o m := by
  have hbase : balance cs o (o + 1) = 1 := by
    rw [balance_succ (Nat.le_refl o) hopen, balance_self]
    decide
  have main : ∀ t, o + 1 + t ≤ j → 0 < balance cs o (o + 1 + t) := by
    intro t
    induction t with
    | zero =>
      intro _
      rw [hbase]
      omega
    | succ t' ih =>
      intro hmj
      have hm' : o + 1 + t' ≤ j := by omega
      have ihpos := ih hm'
      have hlt : o + 1 + t' < cs.length := by omega
      have hgc : cs[o + 1 + t']? = some cs[o + 1 + t'] := List.getElem?_eq_getElem hlt
      have hstep := balance_succ (by omega : o ≤ o + 1 + t') hgc
      have hge := charDepth_ge cs[o + 1 + t']
      have hassoc : o + 1 + (t' + 1) = o + 1 + t' + 1 := by omega
      rw [hassoc]
      by_contra hnp
      have hz : balance cs o (o + 1 + t' + 1) = 0 := by omega
      have hcd : charDepth cs[o + 1 + t'] = -1 := by omega
      exact hmin (o + 1 + t') (by omega) (by omega)
        ⟨by rw [hgc, charDepth_eq_neg_one hcd], hz⟩
  intro m hom hmj
  have h1 : o + 1 + (m - o - 1) ≤ j := by omega
  have h2 := main (m - o - 1) h1
  have h3 : o + 1 + (m - o - 1) = m := by omega
  rwa [h3] at h2

/-- Bridge between the low-level scan specification and the
claim-level balancing-close characterisation. -/
theorem fmbSpec_iff_isBalancingClose {cs : List Char} {o j : Nat}
    (hopen : cs[o]? = some '{') :
    FmbSpec (cs.drop o) o 0 j ↔ IsBalancingClose cs o j := by
  have hform : FmbSpec (cs.drop o) o 0 j ↔
      (o ≤ j ∧ j < cs.length ∧ cs[j]? = some '}' ∧ balance cs o (j + 1) = 0 ∧
        ∀ m, o ≤ m → m < j → ¬(cs[m]? = some '}' ∧ balance cs o (m + 1) = 0)) := by
    unfold FmbSpec
    constructor
    · rintro ⟨k, hk, hj, hch, hbal, hmin⟩
      subst hj
      rw [List.getElem?_drop] at hch
      have hlen : o + k < cs.length := by
        rw [List.length_drop] at hk
        omega
      refine ⟨by omega, hlen, hch, ?_, ?_⟩
      · unfold balance
        have : o + k + 1 - o = k + 1 := by omega
        rw [this]
        omega
      · intro m hom hmk hcontra
        refine hmin (m - o) (by omega) ⟨?_, ?_⟩
        · rw [List.getElem?_drop]
          have : o + (m - o) = m := by omega
          rw [this]
          exact hcontra.1
        · have h2 := hcontra.2
          unfold balance at h2
          have : m + 1 - o = (m - o) + 1 := by omega
          rw [this] at h2
          omega
    · rintro ⟨hoj, hjlen, hch, hbal, hmin⟩
      refine ⟨j - o, ?_, by omega, ?_, ?_, ?_⟩
      · rw [List.length_drop]
        omega
      · rw [List.getElem?_drop]
        have : o + (j - o) = j := by omega
        rw [this]
        exact hch
      · unfold balance at hbal
        have : j + 1 - o = (j - o) + 1 := by omega
        rw [this] at hbal
        omega
      · intro k' hk' hcontra
        refine hmin (o + k') (by omega) (by omega) ⟨?_, ?_⟩
        · rw [List.getElem?_drop] at hcontra
          exact hcontra.1
        · have h2 := hcontra.2
          unfold balance
          have : o + k' + 1 - o = k' + 1 := by omega
          rw [this]
          omega
  rw [hform]
  unfold IsBalancingClose
  constructor
  · rintro ⟨hoj, hjlen, hch, hbal, hmin⟩
    have hne : o ≠ j := by
      intro h
      rw [← h, hopen] at hch
      cases hch
    refine ⟨by omega, hch, hbal, fun m hmj hom => ?_⟩
    exact balance_pos_of_min hopen hjlen hmin m hom hmj
  · rintro ⟨hoj, hch, hbal, hpos⟩
    have hjlen : j < cs.length := (List.getElem?_eq_some.mp hch).1
    refine ⟨by omega, hjlen, hch, hbal, ?_⟩
    intro m hom hmj hcontra
    rcases Nat.eq_or_lt_of_le hom with rfl | hom'
    · rw [hopen] at hcontra
      cases hcontra.1
    · have := hpos (m + 1) (by omega) (by omega)
      omega

/-- C2: for a block opened at a `{`, `_find_matching_brace` returns
exactly the unique balancing `}` (depth stays positive strictly inside
the block, returns to zero there), it raises (`none`) precisely when no
balancing `}` exists from the opening brace onward, the extracted body
is exactly the text strictly between the braces, and any such failure
aborts the whole extraction: no partial body list is produced. -/
theorem find_matching_brace_correct (cs : List Char) (o : Nat)
    (hopen : cs[o]? = some '{') :
    (∀ j, findMatchingBrace cs o = some j ↔ IsBalancingClose cs o j) ∧
      (findMatchingBrace cs o = none ↔ ¬∃ j, IsBalancingClose cs o j) ∧
      (∀ j, findMatchingBrace cs o = some j →
        extractBlockBody cs o = .ok (slice cs (o + 1) j)) ∧
      (∀ opens : List Nat, o ∈ opens → findMatchingBrace cs o = none →
        extractBodies cs opens = .error ParsingError.unbalancedBraces) := by
  have hiff : ∀ j, findMatchingBrace cs o = some j ↔ IsBalancingClose cs o j := by
    intro j
    unfold findMatchingBrace
    rw [fmbAux_some_iff, fmbSpec_iff_isBalancingClose hopen]
  refine ⟨hiff, ?_, ?_, ?_⟩
  · constructor
    · intro hnone ⟨j, hj⟩
      rw [(hiff j).mpr hj] at hnone
      cases hnone
    · intro hno
      cases hfm : findMatchingBrace cs o with
      | none => rfl
      | some j => exact absurd ⟨j, (hiff j).mp hfm⟩ hno
  · intro j hj
    unfold extractBlockBody
    rw [hj]
  · intro opens
    induction opens with
    | nil => intro h; cases h
    | cons o' os ih =>
      intro hmem hnone
      rcases List.mem_cons.mp hmem with rfl | hmem'
      · have hb : extractBlockBody cs o = .error ParsingError.unbalancedBraces := by
          unfold extractBlockBody
          rw [hnone]
        simp only [extractBodies, hb]
      · cases hb : extractBlockBody cs o' with
        | error e =>
          cases e
          simp only [extractBodies, hb]
        | ok b =>
          simp only [extractBodies, hb, ih hmem' hnone]

/-- Witness for C2: the block `{ { } x } }` opened at 0 closes at index 8
(not at the nested `}` at 4 nor the trailing `}` at 10), and an
unbalanced header aborts extraction. -/
theorem find_matching_brace_witness :
    findMatchingBrace (str "\x7b \x7b \x7d x \x7d \x7d") 0 = some 8 ∧
      extractBodies (str "\x7b \x7b") [0] = .error ParsingError.unbalancedBraces :=
  ⟨((find_matching_brace_correct (str "\x7b \x7b \x7d x \x7d \x7d") 0 (by decide)).1 8).mpr (by decide),
   (find_matching_brace_correct (str "\x7b \x7b") 0 (by decide)).2.2.2 [0] (by decide) (by decide)⟩

/-! ## Claim C7 — alias registration and expansion -/

theorem lookup_dictInsertStr_self (m : List (Str × Str)) (k v : Str) :
    (dictInsertStr m (k, v)).lookup k = some v := by
  induction m with
  | nil =>
    show List.lookup k [(k, v)] = some v
    rw [List.lookup_cons, beq_self_eq_true]
  | cons q rest ih =>
    obtain ⟨q1, q2⟩ := q
    show (if q1 = k then (k, v) :: rest else (q1, q2) :: dictInsertStr rest (k, v)).lookup k
      = some v
    by_cases hq : q1 = k
    · rw [if_pos hq, List.lookup_cons, beq_self_eq_true]
    · rw [if_neg hq, List.lookup_cons, beq_false_of_ne (fun h => hq h.symm)]
      exact ih

theorem lookup_dictInsertStr_ne (m : List (Str × Str)) (p : Str × Str) (k : Str)
    (h : k ≠ p.1) : (dictInsertStr m p).lookup k = m.lookup k := by
  induction m with
  | nil =>
    obtain ⟨p1, p2⟩ := p
    show List.lookup k [(p1, p2)] = List.lookup k []
    rw [List.lookup_cons, beq_false_of_ne h]
  | cons q rest ih =>
    obtain ⟨q1, q2⟩ := q
    obtain ⟨p1, p2⟩ := p
    show (if q1 = p1 then (p1, p2) :: rest else (q1, q2) :: dictInsertStr rest (p1, p2)).lookup k
      = ((q1, q2) :: rest).lookup k
    by_cases hq : q1 = p1
    · rw [if_pos hq, List.lookup_cons, List.lookup_cons, beq_false_of_ne h,
        beq_false_of_ne (hq ▸ h)]
    · rw [if_neg hq, List.lookup_cons, List.lookup_cons]
      cases hbk : k == q1 with
      | true => rfl
      | false => exact ih

theorem lookup_foldl_dictInsert :
    ∀ (regs : List (Str × Str)) (m : List (Str × Str)) (k t : Str),
      (∀ p ∈ regs, p.1 = k → p.2 = t) →
      (m.lookup k = some t ∨ (m.lookup k = none ∧ ∃ p ∈ regs, p.1 = k)) →
      (regs.foldl dictInsertStr m).lookup k = some t := by
  intro regs
  induction regs with
  | nil =>
    rintro m k t _ (h | ⟨-, p, hp, -⟩)
    · exact h
    · cases hp
  | cons p rest ih =>
    intro m k t hall hstart
    rw [List.foldl_cons]
    apply ih _ k t (fun q hq hqk => hall q (List.mem_cons_of_mem _ hq) hqk)
    by_cases hpk : p.1 = k
    · left
      have hv : p.2 = t := hall p (List.mem_cons_self _ _) hpk
      have hp : p = (k, t) := by
        obtain ⟨p1, p2⟩ := p
        simp_all
      rw [hp]
      exact lookup_dictInsertStr_self m k t
    · rw [lookup_dictInsertStr_ne m p k (fun h => hpk h.symm)]
      rcases hstart with h | ⟨hn, q, hq, hqk⟩
      · left; exact h
      · rcases List.mem_cons.mp hq with rfl | hq'
        · exact absurd hqk hpk
        · exact Or.inr ⟨hn, q, hq', hqk⟩

theorem mem_aliasRegistrations {elements : List ModelElement} {P : ModelElement}
    {a t : Str} (hP : P ∈ elements) (hkind : P.kind = str "package")
    (ha : (a, t) ∈ P.aliases) :
    (P.qualified_name ++ str "::" ++ a, t) ∈ aliasRegistrations elements := by
  unfold aliasRegistrations
  rw [List.mem_flatMap]
  refine ⟨P, hP, ?_⟩
  rw [if_pos ⟨hkind, List.ne_nil_of_mem ha⟩]
  exact List.mem_map.mpr ⟨(a, t), ha, rfl⟩

theorem lookup_eq_some_of_mem_nodup :
    ∀ {m : List (Str × Str)} {k t : Str},
      (m.map Prod.fst).Nodup → (k, t) ∈ m → m.lookup k = some t := by
  intro m
  induction m with
  | nil => intro k t _ h; cases h
  | cons q rest ih =>
    intro k t hnd hmem
    obtain ⟨q1, q2⟩ := q
    rw [List.map_cons, List.nodup_cons] at hnd
    rcases List.mem_cons.mp hmem with heq | hmem'
    · cases heq
      rw [List.lookup_cons, beq_self_eq_true]
    · rw [List.lookup_cons]
      have hne : k ≠ q1 := by
        intro h
        subst h
        exact hnd.1 (List.mem_map.mpr ⟨(k, t), hmem', rfl⟩)
      rw [beq_false_of_ne hne]
      exact ih hnd.2 hmem'

/-- Two alias keys of equal length that both match a reference are equal. -/
theorem aliasKeyMatches_eq_of_length {k k' ref : Str}
    (h1 : aliasKeyMatches k ref = true) (h2 : aliasKeyMatches k' ref = true)
    (hlen : k.length = k'.length) : k = k' := by
  unfold aliasKeyMatches at h1 h2
  rw [Bool.or_eq_true, decide_eq_true_eq, List.isPrefixOf_iff_prefix] at h1 h2
  have hsep : (str "::").length = 2 := by decide
  rcases h1 with h1 | h1 <;> rcases h2 with h2 | h2
  · rw [← h1, ← h2]
  · exfalso
    have hle := h2.length_le
    rw [List.length_append, hsep] at hle
    have hr : ref.length = k.length := by rw [h1]
    omega
  · exfalso
    have hle := h1.length_le
    rw [List.length_append, hsep] at hle
    have hr : ref.length = k'.length := by rw [h2]
    omega
  · have hcomp := List.prefix_or_prefix_of_prefix h1 h2
    have hlena : (k ++ str "::").length = (k' ++ str "::").length := by
      rw [List.length_append, List.length_append, hlen]
    rcases hcomp with hc | hc
    · exact List.append_cancel_right (hc.eq_of_length hlena)
    · exact List.append_cancel_right (hc.eq_of_length hlena.symm).symm

/-- `find?` over a list sorted by descending length returns a longest
matching key when one exists. -/
theorem find?_sorted_longest {keys : List Str} {ref k : Str}
    (hsort : keys.Sorted keyLenGE) (hk : k ∈ keys)
    (hmatch : aliasKeyMatches k ref = true)
    (hmax : ∀ k' ∈ keys, aliasKeyMatches k' ref = true → k'.length ≤ k.length) :
    ∃ k₀, keys.find? (fun x => aliasKeyMatches x ref) = some k₀ ∧
      aliasKeyMatches k₀ ref = true ∧ k₀.length = k.length := by
  induction keys with
  | nil => cases hk
  | cons x rest ih =>
    by_cases hx : aliasKeyMatches x ref = true
    · refine ⟨x, @List.find?_cons_of_pos _ (fun y => aliasKeyMatches y ref) x rest hx, hx, ?_⟩
      have hle : x.length ≤ k.length := hmax x (List.mem_cons_self _ _) hx
      rcases List.mem_cons.mp hk with rfl | hk'
      · rfl
      · have : keyLenGE x k := List.rel_of_sorted_cons hsort k hk'
        unfold keyLenGE at this
        omega
    · rw [@List.find?_cons_of_neg _ (fun y => aliasKeyMatches y ref) x rest hx]
      have hk' : k ∈ rest := by
        rcases List.mem_cons.mp hk with rfl | hk'
        · exact absurd hmatch hx
        · exact hk'
      exact ih hsort.of_cons hk'
        (fun k' hm hmt => hmax k' (List.mem_cons_of_mem _ hm) hmt)

/-- C7: packages register `alias_map[{pkgQname}::{alias}] = target`
(kept literal), and `_expand_alias_ref` substitutes using the longest
key that equals the reference or is followed by `"::"` in it — in
particular `P::Q::Leaf` expands to `Target::Leaf` under
`alias_map[P::Q] = Target` — leaving unmatched references unchanged. -/
theorem alias_registration_and_expansion :
    (∀ (elements : List ModelElement) (P : ModelElement) (a t : Str),
      P ∈ elements → P.kind = str "package" → (a, t) ∈ P.aliases →
      (∀ p ∈ aliasRegistrations elements,
        p.1 = P.qualified_name ++ str "::" ++ a → p.2 = t) →
      (buildAliasMap elements).lookup (P.qualified_name ++ str "::" ++ a) = some t) ∧
    (∀ (aliasMap : List (Str × Str)) (ref k t : Str),
      (k, t) ∈ aliasMap → aliasKeyMatches k ref = true →
      (∀ p ∈ aliasMap, aliasKeyMatches p.1 ref = true → p.1.length ≤ k.length) →
      (aliasMap.map Prod.fst).Nodup →
      expandAliasRef aliasMap ref = if ref = k then t else t ++ ref.drop k.length) ∧
    (∀ (aliasMap : List (Str × Str)) (ref : Str),
      (∀ p ∈ aliasMap, aliasKeyMatches p.1 ref = false) →
      expandAliasRef aliasMap ref = ref) ∧
    expandAliasRef [(str "P::Q", str "Target")] (str "P::Q::Leaf") = str "Target::Leaf" := by
  refine ⟨?_, ?_, ?_, by decide⟩
  · intro elements P a t hP hkind ha huniq
    unfold buildAliasMap
    exact lookup_foldl_dictInsert _ [] _ t huniq
      (Or.inr ⟨rfl, _, mem_aliasRegistrations hP hkind ha, rfl⟩)
  · intro aliasMap ref k t hmem hmatch hmax hnodup
    unfold expandAliasRef
    rw [if_neg (List.ne_nil_of_mem hmem)]
    have hsort : (List.insertionSort keyLenGE (aliasMap.map Prod.fst)).Sorted keyLenGE :=
      List.sorted_insertionSort keyLenGE _
    have hkmem : k ∈ List.insertionSort keyLenGE (aliasMap.map Prod.fst) :=
      (List.mem_insertionSort keyLenGE).mpr (List.mem_map.mpr ⟨(k, t), hmem, rfl⟩)
    have hmax' : ∀ k' ∈ List.insertionSort keyLenGE (aliasMap.map Prod.fst),
        aliasKeyMatches k' ref = true → k'.length ≤ k.length := by
      intro k' hk' hm
      obtain ⟨p, hp, hpk⟩ := List.mem_map.mp ((List.mem_insertionSort keyLenGE).mp hk')
      exact hpk ▸ hmax p hp (by rw [hpk]; exact hm)
    obtain ⟨k₀, hfind, hm₀, hlen₀⟩ := find?_sorted_longest hsort hkmem hmatch hmax'
    have hk₀ : k₀ = k := aliasKeyMatches_eq_of_length hm₀ hmatch hlen₀
    subst hk₀
    rw [hfind]
    show (match List.lookup k₀ aliasMap with
      | none => ref
      | some t => if ref = k₀ then t else t ++ ref.drop k₀.length) =
      if ref = k₀ then t else t ++ ref.drop k₀.length
    rw [lookup_eq_some_of_mem_nodup hnodup hmem]
  · intro aliasMap ref hnone
    unfold expandAliasRef
    by_cases hnil : aliasMap = []
    · rw [if_pos hnil]
    · rw [if_neg hnil]
      have : (List.insertionSort keyLenGE (aliasMap.map Prod.fst)).find?
          (fun x => aliasKeyMatches x ref) = none := by
        rw [List.find?_eq_none]
        intro x hx
        obtain ⟨p, hp, hpk⟩ := List.mem_map.mp ((List.mem_insertionSort keyLenGE).mp hx)
        rw [← hpk] at *
        simp [hnone p hp]
      rw [this]

/-- Witness for C7: registration of `PackA::Q -> Target` through the
index build, and a longest-key expansion among two keys. -/
theorem alias_registration_and_expansion_witness :
    (buildAliasMap [iwA, iwB]).lookup (str "PackA::Q") = some (str "Target") ∧
      expandAliasRef [(str "P", str "X"), (str "P::Q", str "Target")] (str "P::Q::Leaf")
        = str "Target::Leaf" := by
  constructor
  · have h := alias_registration_and_expansion.1 [iwA, iwB] iwA (str "Q") (str "Target")
      (by decide) (by decide) (by decide) (by decide)
    exact h
  · have h := alias_registration_and_expansion.2.1
      [(str "P", str "X"), (str "P::Q", str "Target")] (str "P::Q::Leaf")
      (str "P::Q") (str "Target") (by decide) (by decide) (by decide) (by decide)
    rw [h]
    decide

/-! ## Graph helper lemmas -/

theorem mem_dictInsertNode {m : List GraphNode} {n x : GraphNode}
    (h : x ∈ dictInsertNode m n) : x ∈ m ∨ x = n := by
  induction m with
  | nil =>
    rw [dictInsertNode] at h
    exact Or.inr (List.mem_singleton.mp h)
  | cons q rest ih =>
    rw [dictInsertNode] at h
    by_cases hq : q.qname = n.qname
    · rw [if_pos hq] at h
      rcases List.mem_cons.mp h with rfl | h'
      · exact Or.inr rfl
      · exact Or.inl (List.mem_cons_of_mem _ h')
    · rw [if_neg hq] at h
      rcases List.mem_cons.mp h with rfl | h'
      · exact Or.inl (List.mem_cons_self _ _)
      · rcases ih h' with h'' | h''
        · exact Or.inl (List.mem_cons_of_mem _ h'')
        · exact Or.inr h''

theorem mem_foldl_dictInsertNode :
    ∀ (l : List ModelElement) (acc : List GraphNode) (x : GraphNode),
      x ∈ l.foldl (fun ns e => dictInsertNode ns (projectNode e)) acc →
      x ∈ acc ∨ ∃ e ∈ l, x = projectNode e := by
  intro l
  induction l with
  | nil => intro acc x h; exact Or.inl h
  | cons e rest ih =>
    intro acc x h
    rw [List.foldl_cons] at h
    rcases ih _ x h with h' | ⟨e', he', hx⟩
    · rcases mem_dictInsertNode h' with h'' | h''
      · exact Or.inl h''
      · exact Or.inr ⟨e, List.mem_cons_self _ _, h''⟩
    · exact Or.inr ⟨e', List.mem_cons_of_mem _ he', hx⟩

theorem mem_buildNodes {elements : List ModelElement} {x : GraphNode}
    (h : x ∈ buildNodes elements) : ∃ e ∈ elements, x = projectNode e := by
  rcases mem_foldl_dictInsertNode elements [] x h with h' | h'
  · cases h'
  · exact h'

theorem buildNodes_qname_ne_nil {elements : List ModelElement}
    (hq : ∀ e ∈ elements, e.qualified_name ≠ []) :
    ∀ x ∈ buildNodes elements, x.qname ≠ [] := by
  intro x hx
  obtain ⟨e, he, rfl⟩ := mem_buildNodes hx
  exact hq e he

theorem hasNode_iff {nodes : List GraphNode} {q : Str} :
    hasNode nodes q = true ↔ ∃ n ∈ nodes, n.qname = q := by
  unfold hasNode
  simp [List.any_eq_true]

theorem dictInsertNode_nodup {m : List GraphNode} {n : GraphNode}
    (h : (m.map GraphNode.qname).Nodup) :
    ((dictInsertNode m n).map GraphNode.qname).Nodup := by
  induction m with
  | nil => simp [dictInsertNode]
  | cons q rest ih =>
    rw [List.map_cons, List.nodup_cons] at h
    rw [dictInsertNode]
    by_cases hq : q.qname = n.qname
    · rw [if_pos hq, List.map_cons, List.nodup_cons]
      exact ⟨hq ▸ h.1, h.2⟩
    · rw [if_neg hq, List.map_cons, List.nodup_cons]
      refine ⟨fun hmem => ?_, ih h.2⟩
      obtain ⟨x, hx, hxq⟩ := List.mem_map.mp hmem
      rcases mem_dictInsertNode hx with h' | h'
      · exact h.1 (hxq ▸ List.mem_map.mpr ⟨x, h', rfl⟩)
      · exact hq (by rw [← hxq, h'])

theorem buildNodes_qnames_nodup (elements : List ModelElement) :
    (((buildNodes elements).map GraphNode.qname)).Nodup := by
  unfold buildNodes
  suffices h : ∀ (l : List ModelElement) (acc : List GraphNode),
      (acc.map GraphNode.qname).Nodup →
      ((l.foldl (fun ns e => dictInsertNode ns (projectNode e)) acc).map GraphNode.qname).Nodup by
    exact h elements [] (by simp)
  intro l
  induction l with
  | nil => intro acc h; exact h
  | cons e rest ih =>
    intro acc h
    rw [List.foldl_cons]
    exact ih _ (dictInsertNode_nodup h)

theorem getNode_of_mem_nodup {nodes : List GraphNode} {node : GraphNode}
    (hnd : (nodes.map GraphNode.qname).Nodup) (hm : node ∈ nodes) :
    getNode nodes node.qname = some node := by
  induction nodes with
  | nil => cases hm
  | cons q rest ih =>
    rw [List.map_cons, List.nodup_cons] at hnd
    rcases List.mem_cons.mp hm with rfl | hm'
    · unfold getNode
      rw [@List.find?_cons_of_pos _ (fun n => decide (n.qname = node.qname)) _ rest (by simp)]
    · unfold getNode
      have hne : ¬((fun (n : GraphNode) => decide (n.qname = node.qname)) q = true) := by
        simp only [decide_eq_true_eq]
        intro h
        exact hnd.1 (h ▸ List.mem_map.mpr ⟨node, hm', rfl⟩)
      rw [@List.find?_cons_of_neg _ (fun n => decide (n.qname = node.qname)) q rest hne]
      exact ih hnd.2 hm'

theorem eq_of_qname_eq_nodup {nodes : List GraphNode} {a b : GraphNode}
    (hnd : (nodes.map GraphNode.qname).Nodup) (ha : a ∈ nodes) (hb : b ∈ nodes)
    (h : a.qname = b.qname) : a = b := by
  have h1 := getNode_of_mem_nodup hnd ha
  have h2 := getNode_of_mem_nodup hnd hb
  rw [h] at h1
  rw [h1] at h2
  exact Option.some.inj h2

theorem label_of_mem_supertypeEdges {nodes : List GraphNode} {e : ModelElement}
    {ed : GraphEdge} (h : ed ∈ supertypeEdges nodes e) : ed.label = str "supertype" := by
  unfold supertypeEdges at h
  obtain ⟨st, _, hst⟩ := List.mem_map.mp h
  subst hst
  cases resolveName nodes e st with
  | none => rfl
  | some q =>
    by_cases hq : q = []
    · simp [hq]
    · simp [hq]

theorem label_of_mem_exhibitEdges {nodes : List GraphNode} {e : ModelElement}
    {ed : GraphEdge} (h : ed ∈ exhibitEdges nodes e) : ed.label = str "exhibit" := by
  unfold exhibitEdges at h
  by_cases hk : e.kind = str "part" ∨ e.kind = str "part def"
  · rw [if_pos hk] at h
    obtain ⟨r, _, hr⟩ := List.mem_map.mp h
    subst hr
    rfl
  · rw [if_neg hk] at h
    cases h

theorem containmentEdge_some_parent {nodes : List GraphNode} {e : ModelElement} {p : Str}
    (hp : parentQname e.qualified_name = some p) :
    containmentEdge nodes e =
      if p ≠ [] ∧ hasNode nodes p = true then
        some { source := p, target := e.qualified_name, label := str "contains" }
      else none := by
  simp only [containmentEdge, hp]

theorem containmentEdge_none_parent {nodes : List GraphNode} {e : ModelElement}
    (hp : parentQname e.qualified_name = none) :
    containmentEdge nodes e = none := by
  simp only [containmentEdge, hp]

theorem containmentEdge_eq {nodes : List GraphNode} {e : ModelElement} {ed : GraphEdge}
    (h : containmentEdge nodes e = some ed) :
    ∃ p, parentQname e.qualified_name = some p ∧ p ≠ [] ∧ hasNode nodes p = true ∧
      ed = { source := p, target := e.qualified_name, label := str "contains" } := by
  cases hp : parentQname e.qualified_name with
  | none => rw [containmentEdge_none_parent hp] at h; cases h
  | some p =>
    rw [containmentEdge_some_parent hp] at h
    by_cases hg : p ≠ [] ∧ hasNode nodes p = true
    · rw [if_pos hg] at h
      exact ⟨p, rfl, hg.1, hg.2, (Option.some.inj h).symm⟩
    · rw [if_neg hg] at h
      cases h

theorem mem_edges_buildModelGraph {elements : List ModelElement} {ed : GraphEdge} :
    ed ∈ (buildModelGraph elements).edges ↔
      ∃ e ∈ elements,
        containmentEdge (buildNodes elements) e = some ed ∨
          ed ∈ supertypeEdges (buildNodes elements) e ∨
          ed ∈ exhibitEdges (buildNodes elements) e := by
  show ed ∈ elements.flatMap _ ↔ _
  rw [List.mem_flatMap]
  constructor
  · rintro ⟨e, he, hmem⟩
    rcases List.mem_append.mp hmem with h | h
    · rcases List.mem_append.mp h with h' | h'
      · refine ⟨e, he, Or.inl ?_⟩
        cases hc : containmentEdge (buildNodes elements) e with
        | none => rw [hc] at h'; cases h'
        | some ed' =>
          rw [hc] at h'
          rw [Option.toList_some, List.mem_singleton] at h'
          rw [h']
      · exact ⟨e, he, Or.inr (Or.inl h')⟩
    · exact ⟨e, he, Or.inr (Or.inr h)⟩
  · rintro ⟨e, he, h | h | h⟩
    · exact ⟨e, he, List.mem_append.mpr (Or.inl (List.mem_append.mpr (Or.inl
        (by rw [h]; exact List.mem_singleton.mpr rfl))))⟩
    · exact ⟨e, he, List.mem_append.mpr (Or.inl (List.mem_append.mpr (Or.inr h)))⟩
    · exact ⟨e, he, List.mem_append.mpr (Or.inr h)⟩

/-! ## Claim C4 — containment-edge invariant -/

/-- C4: every `contains` edge goes from the target's qname with its
trailing `::segment` removed to the target (`qname(B) =
qname(A) ++ "::" ++ localName(B)`), and an element gets a containment
edge iff that parent qname is a node of the graph. -/
theorem containment_edges_correct (elements : List ModelElement)
    (hq : ∀ e ∈ elements, e.qualified_name ≠ []) :
    (∀ ed ∈ (buildModelGraph elements).edges, ed.label = str "contains" →
      ∃ p l, parentLocal ed.target = some (p, l) ∧ ed.source = p ∧
        ed.target = p ++ str "::" ++ l) ∧
      (∀ e ∈ elements,
        ((containmentEdge (buildNodes elements) e).isSome = true ↔
          ∃ p, parentQname e.qualified_name = some p ∧
            hasNode (buildNodes elements) p = true)) ∧
      (∀ e ∈ elements, ∀ ed, containmentEdge (buildNodes elements) e = some ed →
        ed ∈ (buildModelGraph elements).edges) := by
  refine ⟨?_, ?_, ?_⟩
  · intro ed hed hlabel
    obtain ⟨e, he, hcase⟩ := mem_edges_buildModelGraph.mp hed
    rcases hcase with h | h | h
    · obtain ⟨p, hp, -, -, rfl⟩ := containmentEdge_eq h
      obtain ⟨l, hpl, hdecomp⟩ := parentQname_decomp hp
      exact ⟨p, l, hpl, rfl, hdecomp⟩
    · rw [label_of_mem_supertypeEdges h] at hlabel
      exact absurd hlabel (by decide)
    · rw [label_of_mem_exhibitEdges h] at hlabel
      exact absurd hlabel (by decide)
  · intro e he
    cases hp : parentQname e.qualified_name with
    | none =>
      rw [containmentEdge_none_parent hp]
      simp
    | some p =>
      rw [containmentEdge_some_parent hp]
      by_cases hg : p ≠ [] ∧ hasNode (buildNodes elements) p = true
      · rw [if_pos hg]
        simp only [Option.isSome_some, true_iff]
        exact ⟨p, rfl, hg.2⟩
      · rw [if_neg hg]
        simp only [Option.isSome_none, Bool.false_eq_true, false_iff]
        rintro ⟨p', hp', hh⟩
        cases hp'
        rcases Decidable.not_and_iff_or_not.mp hg with h | h
        · rw [Decidable.not_not] at h
          subst h
          obtain ⟨nd, hnd, hq'⟩ := hasNode_iff.mp hh
          exact buildNodes_qname_ne_nil hq nd hnd hq'
        · exact h hh
  · intro e he ed hed
    exact mem_edges_buildModelGraph.mpr ⟨e, he, Or.inl hed⟩

/-- Witness for C4: in the witness graph, `P::Q` gets exactly the
containment edge `P → P::Q`, and it appears in the built graph. -/
theorem containment_edges_witness :
    (containmentEdge (buildNodes gwElems) gwQ).isSome = true ∧
      ∀ ed, containmentEdge (buildNodes gwElems) gwQ = some ed →
        ed ∈ (buildModelGraph gwElems).edges :=
  ⟨((containment_edges_correct gwElems (by decide)).2.1 gwQ (by decide)).mpr
      ⟨str "P", by decide, by decide⟩,
   fun ed => (containment_edges_correct gwElems (by decide)).2.2 gwQ (by decide) ed⟩

/-! ## Shape of resolution results (used for Python truthiness) -/

theorem resolveScopeWalk_some {nodes : List GraphNode} {name : Str} :
    ∀ {fuel : Nat} {q r : Str}, resolveScopeWalk nodes name fuel q = some r →
      ∃ p, r = p ++ str "::" ++ name := by
  intro fuel
  induction fuel with
  | zero => intro q r h; cases h
  | succ f ih =>
    intro q r h
    rw [resolveScopeWalk] at h
    cases hp : parentQname q with
    | none => rw [hp] at h; cases h
    | some p =>
      simp only [hp] at h
      by_cases hpe : p = []
      · rw [if_pos hpe] at h; cases h
      · rw [if_neg hpe] at h
        by_cases hh : hasNode nodes (p ++ str "::" ++ name) = true
        · rw [if_pos hh] at h
          exact ⟨p, (Option.some.inj h).symm⟩
        · rw [if_neg hh] at h
          exact ih h

theorem qualifiedScan_some {nodes : List GraphNode} {name r : Str}
    (h : qualifiedScan nodes name = some r) : ∃ node ∈ nodes, r = node.qname := by
  unfold qualifiedScan at h
  cases hpl : parentLocal name with
  | none => rw [hpl] at h; cases h
  | some pl =>
    simp only [hpl] at h
    obtain ⟨node, hnode, hf⟩ := List.exists_of_findSome?_eq_some h
    refine ⟨node, hnode, ?_⟩
    by_cases h1 : (parentQname node.qname = some pl.1 && pl.2 = pyShortOrName node) = true
    · rw [if_pos h1] at hf
      exact (Option.some.inj hf).symm
    · rw [if_neg h1] at hf
      by_cases h2 : node.qname = name
      · rw [if_pos h2] at hf
        exact (Option.some.inj hf).symm
      · rw [if_neg h2] at hf
        cases hf

theorem globalScan_some {nodes : List GraphNode} {name r : Str}
    (h : globalScan nodes name = some r) : ∃ node ∈ nodes, r = node.qname := by
  unfold globalScan at h
  obtain ⟨node, hnode, hf⟩ := List.exists_of_findSome?_eq_some h
  refine ⟨node, hnode, ?_⟩
  by_cases h1 : (node.name = name || node.short_name = some name) = true
  · rw [if_pos h1] at hf
    exact (Option.some.inj hf).symm
  · rw [if_neg h1] at hf
    cases hf

theorem resolveName_shapes {nodes : List GraphNode} {ctx : ModelElement} {name r : Str}
    (h : resolveName nodes ctx name = some r) :
    r = name ∨ (∃ p, r = p ++ str "::" ++ name) ∨ ∃ node ∈ nodes, r = node.qname := by
  unfold resolveName at h
  by_cases h1 : hasNode nodes name = true
  · rw [if_pos h1] at h
    exact Or.inl (Option.some.inj h).symm
  · rw [if_neg h1] at h
    cases h2 : resolveScopeWalk nodes name ctx.qualified_name.length ctx.qualified_name with
    | some r' =>
      rw [h2] at h
      cases h
      exact Or.inr (Or.inl (resolveScopeWalk_some h2))
    | none =>
      rw [h2] at h
      cases h3 : qualifiedScan nodes name with
      | some r' =>
        rw [h3] at h
        cases h
        exact Or.inr (Or.inr (qualifiedScan_some h3))
      | none =>
        rw [h3] at h
        exact Or.inr (Or.inr (globalScan_some h))

/-- A successful resolution never yields an empty (falsy) string when the
reference and every node qname are non-empty. -/
theorem resolveName_ne_nil {nodes : List GraphNode} {ctx : ModelElement} {name r : Str}
    (hname : name ≠ []) (hnodes : ∀ n ∈ nodes, n.qname ≠ [])
    (h : resolveName nodes ctx name = some r) : r ≠ [] := by
  rcases resolveName_shapes h with rfl | ⟨p, rfl⟩ | ⟨node, hnode, rfl⟩
  · exact hname
  · simp [str]
  · exact hnodes node hnode

/-! ## Claim C6 — unresolved supertypes are never dropped -/

/-- C6: one supertype edge per token, the literal token with
`unresolved := true` when resolution fails, the resolved qname without
the marker when it succeeds; every such edge is in the built graph. -/
theorem supertype_edges_never_dropped (elements : List ModelElement)
    (hq : ∀ e ∈ elements, e.qualified_name ≠ []) :
    (∀ e ∈ elements,
      (supertypeEdges (buildNodes elements) e).length = e.supertypes.length) ∧
      (∀ e ∈ elements, ∀ (k : Nat) (st : Str), e.supertypes[k]? = some st → st ≠ [] →
        ((resolveName (buildNodes elements) e st = none →
          (supertypeEdges (buildNodes elements) e)[k]? =
            some { source := e.qualified_name, target := st, label := str "supertype",
                   unresolved := true }) ∧
         (∀ q, resolveName (buildNodes elements) e st = some q →
          (supertypeEdges (buildNodes elements) e)[k]? =
            some { source := e.qualified_name, target := q, label := str "supertype" }))) ∧
      (∀ e ∈ elements, ∀ ed ∈ supertypeEdges (buildNodes elements) e,
        ed ∈ (buildModelGraph elements).edges) := by
  refine ⟨?_, ?_, ?_⟩
  · intro e _
    unfold supertypeEdges
    exact List.length_map _ _
  · intro e _ k st hst hstne
    constructor
    · intro hres
      unfold supertypeEdges
      rw [List.getElem?_map, hst, Option.map_some', hres]
    · intro q hres
      have hqne : q ≠ [] :=
        resolveName_ne_nil hstne (buildNodes_qname_ne_nil hq) hres
      unfold supertypeEdges
      rw [List.getElem?_map, hst, Option.map_some', hres]
      simp only [if_neg hqne]
  · intro e he ed hed
    exact mem_edges_buildModelGraph.mpr ⟨e, he, Or.inr (Or.inl hed)⟩

/-- Witness for C6: `P::Q`'s first supertype `P` resolves, its second
supertype `Missing` does not and is kept as a literal unresolved edge. -/
theorem supertype_edges_witness :
    (supertypeEdges (buildNodes gwElems) gwQ)[0]? =
      some { source := gwQ.qualified_name, target := str "P", label := str "supertype" } ∧
      (supertypeEdges (buildNodes gwElems) gwQ)[1]? =
        some { source := gwQ.qualified_name, target := str "Missing",
               label := str "supertype", unresolved := true } :=
  ⟨((supertype_edges_never_dropped gwElems (by decide)).2.1 gwQ (by decide) 0 (str "P")
      (by decide) (by decide)).2 (str "P") (by decide),
   ((supertype_edges_never_dropped gwElems (by decide)).2.1 gwQ (by decide) 1 (str "Missing")
      (by decide) (by decide)).1 (by decide)⟩

/-! ## Claim C5 — exhibit edges prefer state-kind nodes -/

theorem pyOr_some (s d : Str) : pyOr (some s) d = if s = [] then d else s := rfl

theorem pyOr_none (d : Str) : pyOr none d = d := rfl

theorem mem_exhibitEdges_of_ref {nodes : List GraphNode} {e : ModelElement} {n : Str}
    (hkind : e.kind = str "part" ∨ e.kind = str "part def") (href : n ∈ e.exhibit_refs) :
    { source := e.qualified_name, target := pyOr (resolveExhibitTarget nodes e n) n,
      label := str "exhibit" : GraphEdge } ∈ exhibitEdges nodes e := by
  unfold exhibitEdges
  rw [if_pos hkind]
  exact List.mem_map.mpr ⟨n, href, rfl⟩

/-- C5: when the graph has a node matching the reference by name or
short name and at least one matching node is state-kind, the emitted
exhibit edge targets a state-kind matching node; when no node matches,
the general chain decides the target, the literal reference standing in
when it fails too. -/
theorem exhibit_prefers_state (elements : List ModelElement) (e : ModelElement) (n : Str)
    (he : e ∈ elements) (hkind : e.kind = str "part" ∨ e.kind = str "part def")
    (href : n ∈ e.exhibit_refs) (hn : n ≠ [])
    (hq : ∀ el ∈ elements, el.qualified_name ≠ []) :
    ((∃ node ∈ buildNodes elements, (node.name = n ∨ node.short_name = some n) ∧
        node.kind = str "state") →
      ∃ t, { source := e.qualified_name, target := t, label := str "exhibit" : GraphEdge }
          ∈ (buildModelGraph elements).edges ∧
        ∃ node ∈ buildNodes elements, node.qname = t ∧ node.kind = str "state" ∧
          (node.name = n ∨ node.short_name = some n)) ∧
      ((¬∃ node ∈ buildNodes elements, node.name = n ∨ node.short_name = some n) →
        ((∀ t, resolveName (buildNodes elements) e n = some t →
          { source := e.qualified_name, target := t, label := str "exhibit" : GraphEdge }
            ∈ (buildModelGraph elements).edges) ∧
         (resolveName (buildNodes elements) e n = none →
          { source := e.qualified_name, target := n, label := str "exhibit" : GraphEdge }
            ∈ (buildModelGraph elements).edges))) := by
  have hedge : ∀ t, pyOr (resolveExhibitTarget (buildNodes elements) e n) n = t →
      { source := e.qualified_name, target := t, label := str "exhibit" : GraphEdge }
        ∈ (buildModelGraph elements).edges := by
    intro t ht
    refine mem_edges_buildModelGraph.mpr ⟨e, he, Or.inr (Or.inr ?_)⟩
    rw [← ht]
    exact mem_exhibitEdges_of_ref hkind href
  have hnd := buildNodes_qnames_nodup elements
  constructor
  · rintro ⟨node, hnode, hmatch, hstate⟩
    have hpred : (fun (x : GraphNode) => x.name = n || x.short_name = some n) node = true := by
      simp only [Bool.or_eq_true, decide_eq_true_eq]
      exact hmatch
    have hcand : node.qname ∈ exhibitCandidates (buildNodes elements) n := by
      unfold exhibitCandidates
      exact List.mem_map.mpr ⟨node, List.mem_filter.mpr ⟨hnode, hpred⟩, rfl⟩
    have hscand : node.qname ∈ exhibitStateCandidates (buildNodes elements) n := by
      unfold exhibitStateCandidates
      refine List.mem_filter.mpr ⟨hcand, ?_⟩
      rw [getNode_of_mem_nodup hnd hnode]
      simp [hstate]
    have hcne : exhibitCandidates (buildNodes elements) n ≠ [] :=
      List.ne_nil_of_mem hcand
    cases hsc : exhibitStateCandidates (buildNodes elements) n with
    | nil => rw [hsc] at hscand; cases hscand
    | cons s ss =>
      have hres : resolveExhibitTarget (buildNodes elements) e n = some s := by
        unfold resolveExhibitTarget
        rw [if_neg hcne, hsc]
        rfl
      have hs_mem : s ∈ exhibitStateCandidates (buildNodes elements) n := by
        rw [hsc]; exact List.mem_cons_self _ _
      have hs_all := List.mem_filter.mp hs_mem
      obtain ⟨node', hnode'f, hnode'q⟩ := List.mem_map.mp hs_all.1
      have hnode'mem : node' ∈ buildNodes elements := (List.mem_filter.mp hnode'f).1
      have hskind : node'.kind = str "state" := by
        have h2 := hs_all.2
        rw [← hnode'q, getNode_of_mem_nodup hnd hnode'mem] at h2
        simpa using h2
      have hsne : s ≠ [] := by
        rw [← hnode'q]
        exact buildNodes_qname_ne_nil hq node' hnode'mem
      refine ⟨s, hedge s ?_, node', hnode'mem, hnode'q, hskind, ?_⟩
      · rw [hres, pyOr_some, if_neg hsne]
      · have := (List.mem_filter.mp hnode'f).2
        simpa using this
  · intro hno
    have hcnil : exhibitCandidates (buildNodes elements) n = [] := by
      unfold exhibitCandidates
      rw [List.map_eq_nil_iff, List.filter_eq_nil_iff]
      intro x hx
      simp only [Bool.or_eq_true, decide_eq_true_eq]
      intro hc
      exact hno ⟨x, hx, hc⟩
    have hres : resolveExhibitTarget (buildNodes elements) e n
        = resolveName (buildNodes elements) e n := by
      unfold resolveExhibitTarget
      rw [if_pos hcnil]
    constructor
    · intro t ht
      have htne : t ≠ [] := resolveName_ne_nil hn (buildNodes_qname_ne_nil hq) ht
      refine hedge t ?_
      rw [hres, ht, pyOr_some, if_neg htne]
    · intro hnone
      refine hedge n ?_
      rw [hres, hnone, pyOr_none]

/-- Witness for C5: the reference `S` matches both the part `P::S` and
the state `P::T`; the exhibit edge of `P::Q` targets the state. -/
theorem exhibit_prefers_state_witness :
    ∃ t, { source := gwQ.qualified_name, target := t,
           label := str "exhibit" : GraphEdge } ∈ (buildModelGraph gwElems).edges ∧
      ∃ node ∈ buildNodes gwElems, node.qname = t ∧ node.kind = str "state" ∧
        (node.name = str "S" ∨ node.short_name = some (str "S")) :=
  (exhibit_prefers_state gwElems gwQ (str "S") (by decide) (by decide) (by decide)
    (by decide) (by decide)).1 (by decide)

/-! ## Claim C3 — the name-resolution chain (corrected)

Step 3 of the chain does not match "short name **or** name": Python's
`local == (node.short_name or node.name)` compares against the short
name alone whenever the short name is a non-empty string. -/

/-- Counterexample to C3 as stated: the single node has parent qname `P`
and name `local`, so the claimed step (3) of the chain resolves
`P::local` to it; the code leaves the reference unresolved because the
node's non-empty short name `S` shadows its name. -/
theorem resolve_name_counterexample :
    resolveName [cexNode] cexCtx (str "P::local") = none ∧
      resolveNameClaimed [cexNode] cexCtx (str "P::local") = some (str "P::A") ∧
      parentQname cexNode.qname = some (str "P") ∧
      cexNode.name = str "local" ∧
      parentLocal (str "P::local") = some (str "P", str "local") := by
  refine ⟨by decide, by decide, by decide, by decide, by decide⟩

/-- The `while` loop of `_resolve_name` computes the innermost-first
scan over the ancestor chain. -/
theorem resolveScopeWalk_eq_findSome (nodes : List GraphNode) (name : Str) :
    ∀ (fuel : Nat) (q : Str),
      resolveScopeWalk nodes name fuel q =
        (ancestorsAux fuel q).findSome? (fun a =>
          if hasNode nodes (a ++ str "::" ++ name) then some (a ++ str "::" ++ name)
          else none) := by
  intro fuel
  induction fuel with
  | zero => intro q; rfl
  | succ f ih =>
    intro q
    cases hp : parentQname q with
    | none => simp only [resolveScopeWalk, ancestorsAux, hp, List.findSome?_nil]
    | some p =>
      by_cases hpe : p = []
      · simp only [resolveScopeWalk, ancestorsAux, hp, if_pos hpe, List.findSome?_nil]
      · simp only [resolveScopeWalk, ancestorsAux, hp, if_neg hpe, List.findSome?_cons]
        by_cases hh : hasNode nodes (p ++ str "::" ++ name) = true
        · simp only [if_pos hh]
        · simp only [if_neg hh]
          exact ih p

/-- C3 (amended): the chain is (1) exact qualified-name hit, then
(2) the innermost-first ancestor scan obtained by stripping one
`::segment` at a time, then (3) for a qualified reference
`prefix::local`, the first node whose containment-parent qname is
`prefix` and whose *short name when non-empty, else name* equals
`local` (or whose qname is the whole reference), then (4) the global
name/short-name scan; each earlier step strictly preempts the later
ones. -/
theorem resolve_name_chain_amended (nodes : List GraphNode) (ctx : ModelElement)
    (name : Str) :
    (hasNode nodes name = true → resolveName nodes ctx name = some name) ∧
      (hasNode nodes name = false →
        ∀ r, scopeWalkSpec nodes name ctx.qualified_name = some r →
          resolveName nodes ctx name = some r) ∧
      (hasNode nodes name = false →
        scopeWalkSpec nodes name ctx.qualified_name = none →
        ∀ r, qualifiedScan nodes name = some r → resolveName nodes ctx name = some r) ∧
      (hasNode nodes name = false →
        scopeWalkSpec nodes name ctx.qualified_name = none →
        qualifiedScan nodes name = none →
        resolveName nodes ctx name = globalScan nodes name) := by
  have hwalk : resolveScopeWalk nodes name ctx.qualified_name.length ctx.qualified_name
      = scopeWalkSpec nodes name ctx.qualified_name := by
    rw [resolveScopeWalk_eq_findSome]
    rfl
  refine ⟨?_, ?_, ?_, ?_⟩
  · intro h
    unfold resolveName
    rw [if_pos h]
  · intro h r hr
    unfold resolveName
    rw [if_neg (by simp [h]), hwalk, hr]
  · intro h hw r hr
    unfold resolveName
    rw [if_neg (by simp [h]), hwalk, hw]
    simp only [hr]
  · intro h hw hq
    unfold resolveName
    rw [if_neg (by simp [h]), hwalk, hw]
    simp only [hq]

/-- Witness for C3 (amended): with no qualified-name hit, no ancestor
candidate and no prefix match, the chain falls through to the global
scan, which finds the node by its name. -/
theorem resolve_name_chain_witness :
    resolveName [cexNode] cexCtx (str "local") = some (str "P::A") := by
  rw [(resolve_name_chain_amended [cexNode] cexCtx (str "local")).2.2.2
    (by decide) (by decide) (by decide)]
  decide

/-! ## Claim C1 — qualified-name resolution (corrected)

The narrowest-container consequence claimed by the specification fails
when container spans overlap without nesting, which the extractor can
produce (a block header whose `<...>` short-name bracket swallows the
closing brace of an enclosing block). -/

instance : IsTotal (Nat × ModelElement) containerLE :=
  ⟨fun a b => by unfold containerLE; omega⟩

instance : IsTrans (Nat × ModelElement) containerLE :=
  ⟨fun a b c hab hbc => by unfold containerLE at *; omega⟩

instance : IsAntisymm (Nat × ModelElement) spanGT :=
  ⟨fun a b hab hba => by unfold spanGT at *; omega⟩

/-- Counterexample to C1's narrowest-container equation, on the elements
extracted from the source text shown at `cexA`'s definition: `B` is the
narrowest container of `E` (every other container of `E` has a strictly
larger span), `B`'s own qualified name is `B`, yet `E` is assigned
`A::B::E`, not `qualified_name(B) ++ "::" ++ E.name = B::E`. -/
theorem qualified_name_counterexample :
    (1, cexB) ∈ enclosingOf [cexA, cexB, cexE] 2 cexE ∧
      (∀ q ∈ enclosingOf [cexA, cexB, cexE] 2 cexE, q.1 ≠ 1 →
        spanSize cexB < spanSize q.2) ∧
      ((resolveQualifiedNames [cexA, cexB, cexE])[2]?).map ModelElement.qualified_name
        = some (str "A::B::E") ∧
      ((resolveQualifiedNames [cexA, cexB, cexE])[1]?).map ModelElement.qualified_name
        = some (str "B") ∧
      str "A::B::E" ≠ str "B" ++ str "::" ++ cexE.name := by
  decide

theorem encloses_iff {j : Nat} {c : ModelElement} {i : Nat} {e : ModelElement} :
    encloses j c i e = true ↔
      j ≠ i ∧ c.file_path = e.file_path ∧ c.start_index < e.start_index ∧
        e.start_index < e.end_index ∧ e.end_index < c.end_index := by
  unfold encloses
  simp [Bool.and_eq_true, decide_eq_true_eq, and_assoc]

theorem mem_containerList {elements : List ModelElement} {q : Nat × ModelElement}
    (h : q ∈ containerList elements) :
    elements[q.1]? = some q.2 ∧ q.2.kind ∈ containerKinds := by
  unfold containerList at h
  have hmem := List.mem_filter.mp h
  have henum := hmem.1
  obtain ⟨i, e⟩ := q
  have := List.mem_enum henum
  exact ⟨List.getElem?_eq_some.mpr ⟨this.1, this.2.symm⟩,
    by simpa using hmem.2⟩

theorem containerList_fst_nodup (elements : List ModelElement) :
    ((containerList elements).map Prod.fst).Nodup := by
  unfold containerList
  have hsub : ((elements.enum.filter
      (fun p => decide (p.2.kind ∈ containerKinds))).map Prod.fst).Sublist
      (elements.enum.map Prod.fst) :=
    (List.filter_sublist _).map Prod.fst
  have : (elements.enum.map Prod.fst).Nodup := by
    rw [List.enum_map_fst]
    exact List.nodup_range _
  exact this.sublist hsub

theorem enclosingOf_fst_nodup (elements : List ModelElement) (i : Nat) (e : ModelElement) :
    ((enclosingOf elements i e).map Prod.fst).Nodup := by
  unfold enclosingOf
  exact (containerList_fst_nodup elements).sublist ((List.filter_sublist _).map Prod.fst)

theorem perm_cons_filter_of_nodup_fst {l : List (Nat × ModelElement)} {j : Nat}
    {P : ModelElement} (hnd : (l.map Prod.fst).Nodup) (hmem : (j, P) ∈ l) :
    l.Perm ((j, P) :: l.filter (fun q => q.1 ≠ j)) := by
  induction l with
  | nil => cases hmem
  | cons x rest ih =>
    rw [List.map_cons, List.nodup_cons] at hnd
    rcases List.mem_cons.mp hmem with heq | hmem'
    · subst heq
      have hrest : rest.filter (fun q => q.1 ≠ j) = rest := by
        rw [List.filter_eq_self]
        intro a ha
        simp only [decide_eq_true_eq]
        intro hja
        exact hnd.1 (hja ▸ List.mem_map.mpr ⟨a, ha, rfl⟩)
      rw [List.filter_cons, if_neg (by simp), hrest]
    · have hxj : x.1 ≠ j :=
        fun h => hnd.1 (h ▸ List.mem_map.mpr ⟨(j, P), hmem', rfl⟩)
      rw [List.filter_cons, if_pos (by simpa using hxj)]
      exact ((ih hnd.2 hmem').cons x).trans (List.Perm.swap (j, P) x _)

theorem intercalate_singleton (sep x : Str) : List.intercalate sep [x] = x := by
  simp [List.intercalate, List.intersperse_singleton]

/-- The two-element intercalate base case. -/
theorem intercalate_pair (sep x y : Str) :
    List.intercalate sep [x, y] = x ++ sep ++ y := by
  simp [List.intercalate, List.intersperse_cons_cons, List.intersperse_singleton,
    List.append_assoc]

theorem intercalate_cons₂ (sep x y : Str) (l : List Str) :
    List.intercalate sep (x :: y :: l) = x ++ sep ++ List.intercalate sep (y :: l) := by
  simp [List.intercalate, List.intersperse_cons_cons, List.append_assoc]

theorem intercalate_append_last (sep : Str) :
    ∀ (xs : List Str) (y : Str), xs ≠ [] →
      List.intercalate sep (xs ++ [y]) = List.intercalate sep xs ++ sep ++ y := by
  intro xs
  induction xs with
  | nil => intro y h; cases h rfl
  | cons x rest ih =>
    intro y _
    cases rest with
    | nil =>
      show List.intercalate sep [x, y] = List.intercalate sep [x] ++ sep ++ y
      rw [intercalate_pair, intercalate_singleton]
    | cons x' rest' =>
      have h1 : List.intercalate sep ((x :: x' :: rest') ++ [y])
          = x ++ sep ++ List.intercalate sep ((x' :: rest') ++ [y]) :=
        intercalate_cons₂ sep x x' (rest' ++ [y])
      rw [h1, ih y (by simp), intercalate_cons₂]
      simp [List.append_assoc]

theorem resolveQualifiedNames_getElem? (elements : List ModelElement) (i : Nat) :
    (resolveQualifiedNames elements)[i]? =
      (elements[i]?).map
        (fun e => { e with qualified_name := assignQualifiedName elements i e }) := by
  unfold resolveQualifiedNames
  rw [List.getElem?_map, List.getElem?_enum]
  cases elements[i]? <;> rfl

/-- C1 (amended): an element with no container keeps its own name as
qualified name; and the narrowest-container equation
`qualified_name(E) = qualified_name(P) ++ "::" ++ E.name` holds provided
the containers of `E` are properly nested: every container other than
the narrowest `P` strictly contains `P`, and container spans have
pairwise distinct sizes. -/
theorem qualified_name_nesting :
    (∀ (elements : List ModelElement) (i : Nat) (E : ModelElement),
      elements[i]? = some E → enclosingOf elements i E = [] →
      (resolveQualifiedNames elements)[i]? =
        some { E with qualified_name := E.name }) ∧
      (∀ (elements : List ModelElement) (i j : Nat) (E P : ModelElement),
        elements[i]? = some E → elements[j]? = some P →
        (j, P) ∈ enclosingOf elements i E →
        (∀ q ∈ enclosingOf elements i E, q.1 ≠ j → encloses q.1 q.2 j P = true) →
        (enclosingOf elements i E).Pairwise (fun a b => spanSize a.2 ≠ spanSize b.2) →
        ∃ E' P', (resolveQualifiedNames elements)[i]? = some E' ∧
          (resolveQualifiedNames elements)[j]? = some P' ∧
          E'.qualified_name = P'.qualified_name ++ str "::" ++ E.name) := by
  constructor
  · intro elements i E hi hencl
    rw [resolveQualifiedNames_getElem?, hi]
    simp only [Option.map_some']
    congr 1
    unfold assignQualifiedName
    rw [hencl]
    rfl
  · intro elements i j E P hi hj hmem hnarrow hpair
    have hmemF := List.mem_filter.mp hmem
    have hPE : j ≠ i ∧ P.file_path = E.file_path ∧ P.start_index < E.start_index ∧
        E.start_index < E.end_index ∧ E.end_index < P.end_index := by
      have h := encloses_iff.mp hmemF.2
      simpa using h
    have hfilter : enclosingOf elements j P
        = (enclosingOf elements i E).filter (fun q => q.1 ≠ j) := by
      unfold enclosingOf
      rw [List.filter_filter]
      apply List.filter_congr
      intro x hx
      rw [Bool.eq_iff_iff]
      constructor
      · intro hxP
        have hx1 := encloses_iff.mp hxP
        have hxi : x.1 ≠ i := by
          intro hident
          have hxel := (mem_containerList hx).1
          rw [hident] at hxel
          have hxE : x.2 = E := Option.some.inj (hxel.symm.trans hi)
          rw [hxE] at hx1
          omega
        have hxE : encloses x.1 x.2 i E = true := by
          rw [encloses_iff]
          refine ⟨hxi, ?_, by omega, by omega, by omega⟩
          rw [hx1.2.1, hPE.2.1]
        simp only [Bool.and_eq_true, decide_eq_true_eq]
        exact ⟨hx1.1, hxE⟩
      · intro hb
        simp only [Bool.and_eq_true, decide_eq_true_eq] at hb
        exact hnarrow x (List.mem_filter.mpr ⟨hx, hb.2⟩) hb.1
    have hndE := enclosingOf_fst_nodup elements i E
    have hperm0 : (enclosingOf elements i E).Perm
        ((j, P) :: enclosingOf elements j P) := by
      rw [hfilter]
      exact perm_cons_filter_of_nodup_fst hndE hmem
    have hsizes : ∀ q ∈ enclosingOf elements j P, spanSize P < spanSize q.2 := by
      intro q hq
      have hq' : q ∈ (enclosingOf elements i E).filter (fun q => q.1 ≠ j) := by
        rw [← hfilter]; exact hq
      have hq1 := List.mem_filter.mp hq'
      have hqj : q.1 ≠ j := by simpa using hq1.2
      have henc := encloses_iff.mp (hnarrow q hq1.1 hqj)
      unfold spanSize
      omega
    have hsortE : List.Sorted spanGT
        (List.insertionSort containerLE (enclosingOf elements i E)) := by
      have h1 := List.sorted_insertionSort containerLE (enclosingOf elements i E)
      have h2 : (List.insertionSort containerLE (enclosingOf elements i E)).Pairwise
          (fun a b => spanSize a.2 ≠ spanSize b.2) :=
        (List.Perm.pairwise_iff (fun h => Ne.symm h)
          (List.perm_insertionSort containerLE _)).mpr hpair
      exact (h1.and h2).imp (fun hab => by
        obtain ⟨h3, h4⟩ := hab
        unfold containerLE at h3
        unfold spanGT
        omega)
    have hpairP : (enclosingOf elements j P).Pairwise
        (fun a b => spanSize a.2 ≠ spanSize b.2) := by
      rw [hfilter]
      exact List.Pairwise.sublist (List.filter_sublist _) hpair
    have hsortP : List.Sorted spanGT
        (List.insertionSort containerLE (enclosingOf elements j P)) := by
      have h1 := List.sorted_insertionSort containerLE (enclosingOf elements j P)
      have h2 : (List.insertionSort containerLE (enclosingOf elements j P)).Pairwise
          (fun a b => spanSize a.2 ≠ spanSize b.2) :=
        (List.Perm.pairwise_iff (fun h => Ne.symm h)
          (List.perm_insertionSort containerLE _)).mpr hpairP
      exact (h1.and h2).imp (fun hab => by
        obtain ⟨h3, h4⟩ := hab
        unfold containerLE at h3
        unfold spanGT
        omega)
    have hsortR : List.Sorted spanGT
        (List.insertionSort containerLE (enclosingOf elements j P) ++ [(j, P)]) := by
      rw [List.Sorted, List.pairwise_append]
      refine ⟨hsortP, List.pairwise_singleton _ _, ?_⟩
      intro a ha b hb
      rw [List.mem_singleton] at hb
      subst hb
      have haP : a ∈ enclosingOf elements j P :=
        (List.mem_insertionSort containerLE).mp ha
      unfold spanGT
      exact hsizes a haP
    have hpermFull : (List.insertionSort containerLE (enclosingOf elements i E)).Perm
        (List.insertionSort containerLE (enclosingOf elements j P) ++ [(j, P)]) :=
      (List.perm_insertionSort containerLE _).trans
        (hperm0.trans
          ((((List.perm_insertionSort containerLE _).symm).cons (j, P)).trans
            (List.perm_append_singleton _ _).symm))
    have heq : List.insertionSort containerLE (enclosingOf elements i E)
        = List.insertionSort containerLE (enclosingOf elements j P) ++ [(j, P)] :=
      List.eq_of_perm_of_sorted hpermFull hsortE hsortR
    refine ⟨{ E with qualified_name := assignQualifiedName elements i E },
      { P with qualified_name := assignQualifiedName elements j P }, ?_, ?_, ?_⟩
    · rw [resolveQualifiedNames_getElem?, hi]; rfl
    · rw [resolveQualifiedNames_getElem?, hj]; rfl
    · show assignQualifiedName elements i E
        = assignQualifiedName elements j P ++ str "::" ++ E.name
      unfold assignQualifiedName
      rw [heq, List.map_append]
      rw [if_neg (by simp)]
      cases hSPn : (List.insertionSort containerLE (enclosingOf elements j P)).map
          (fun p => p.2.name) with
      | nil =>
        rw [if_pos rfl]
        simp only [List.nil_append, List.map_cons, List.map_nil]
        exact intercalate_pair _ _ _
      | cons nm ns =>
        rw [if_neg (by simp)]
        simp only [List.map_cons, List.map_nil]
        exact intercalate_append_last _ _ _ (by simp)

/-- Witness for C1: in `[witP, witE]` the part `witE` is strictly inside
the package `witP` and nothing else, so its qualified name extends
`witP`'s by `::E`; and `witP` itself has no container, keeping its bare
name. -/
theorem qualified_name_nesting_witness :
    ((resolveQualifiedNames [witP, witE])[0]? =
        some { witP with qualified_name := witP.name }) ∧
      ∃ E' P', (resolveQualifiedNames [witP, witE])[1]? = some E' ∧
        (resolveQualifiedNames [witP, witE])[0]? = some P' ∧
        E'.qualified_name = P'.qualified_name ++ str "::" ++ witE.name :=
  ⟨qualified_name_nesting.1 [witP, witE] 0 witP (by decide) (by decide),
   qualified_name_nesting.2 [witP, witE] 1 0 witE witP (by decide) (by decide)
     (by decide) (by decide) (by decide)⟩

/-! ## Claim C10 — `descendants` terminates on built graphs -/

theorem contains_edge_length {elements : List ModelElement} {ed : GraphEdge}
    (hed : ed ∈ (buildModelGraph elements).edges) (hlabel : ed.label = str "contains") :
    ed.source.length < ed.target.length := by
  obtain ⟨e, _, hcase⟩ := mem_edges_buildModelGraph.mp hed
  rcases hcase with h | h | h
  · obtain ⟨p, hp, -, -, rfl⟩ := containmentEdge_eq h
    exact parentQname_length hp
  · rw [label_of_mem_supertypeEdges h] at hlabel
    exact absurd hlabel (by decide)
  · rw [label_of_mem_exhibitEdges h] at hlabel
    exact absurd hlabel (by decide)

theorem childrenMap_length {elements : List ModelElement} {q c : Str}
    (hc : c ∈ childrenMap (buildModelGraph elements) q) : q.length < c.length := by
  unfold childrenMap at hc
  obtain ⟨ed, hed, rfl⟩ := List.mem_map.mp hc
  have h1 := List.mem_filter.mp hed
  have h2 : ed.label = str "contains" ∧ ed.source = q := by
    have := h1.2
    simpa [Bool.and_eq_true, decide_eq_true_eq] using this
  have h3 := contains_edge_length h1.1 h2.1
  rw [h2.2] at h3
  exact h3

theorem le_foldr_max : ∀ {l : List Nat} {x : Nat}, x ∈ l → x ≤ l.foldr max 0 := by
  intro l
  induction l with
  | nil => intro x hx; cases hx
  | cons a rest ih =>
    intro x hx
    rcases List.mem_cons.mp hx with rfl | hx'
    · exact le_max_left _ _
    · exact le_trans (ih hx') (le_max_right _ _)

theorem childrenMap_target_le {g : ModelGraph} {q c : Str}
    (hc : c ∈ childrenMap g q) : c.length ≤ graphMaxTargetLen g := by
  unfold childrenMap at hc
  obtain ⟨ed, hed, rfl⟩ := List.mem_map.mp hc
  have hmem : ed ∈ g.edges := (List.filter_sublist _).mem hed
  exact le_foldr_max (List.mem_map.mpr ⟨ed, hmem, rfl⟩)

theorem childrenMap_count_le (g : ModelGraph) (q : Str) :
    (childrenMap g q).length ≤ g.edges.length := by
  unfold childrenMap
  rw [List.length_map]
  exact List.length_filter_le _ _

theorem descPotential_pos (g : ModelGraph) (q : Str) : 0 < descPotential g q :=
  pow_pos (by omega) _

theorem stackPotential_cons (g : ModelGraph) (q : Str) (stack : List Str) :
    stackPotential g (q :: stack) = descPotential g q + stackPotential g stack := by
  simp [stackPotential]

theorem stackPotential_append (g : ModelGraph) (a b : List Str) :
    stackPotential g (a ++ b) = stackPotential g a + stackPotential g b := by
  simp [stackPotential]

theorem stackPotential_reverse (g : ModelGraph) (a : List Str) :
    stackPotential g a.reverse = stackPotential g a := by
  unfold stackPotential
  rw [List.map_reverse, List.sum_reverse]

/-- The total potential of the children pushed for one pop is strictly
below the potential of the popped entry. -/
theorem children_pot_lt {g : ModelGraph}
    (hlen : ∀ q c, c ∈ childrenMap g q → q.length < c.length) (q : Str) :
    stackPotential g (childrenMap g q) < descPotential g q := by
  cases hch : childrenMap g q with
  | nil =>
    unfold stackPotential
    simp only [List.map_nil, List.sum_nil]
    exact descPotential_pos g q
  | cons c cs =>
    have hc0 : c ∈ childrenMap g q := by rw [hch]; exact List.mem_cons_self _ _
    have hqlt : q.length < c.length := hlen q c hc0
    have hcle : c.length ≤ graphMaxTargetLen g := childrenMap_target_le hc0
    have hbound : ∀ x ∈ (childrenMap g q).map (descPotential g),
        x ≤ (g.edges.length + 2) ^ (graphMaxTargetLen g + 1 - q.length - 1) := by
      intro x hx
      obtain ⟨c', hc', rfl⟩ := List.mem_map.mp hx
      unfold descPotential
      apply Nat.pow_le_pow_right (by omega)
      have h1 := hlen q c' hc'
      have h2 := childrenMap_target_le hc'
      omega
    have hsum := List.sum_le_card_nsmul _ _ hbound
    rw [List.length_map, smul_eq_mul] at hsum
    have hcount := childrenMap_count_le g q
    have hBpos : 0 < (g.edges.length + 2) ^ (graphMaxTargetLen g + 1 - q.length - 1) :=
      pow_pos (by omega) _
    have hsplit : descPotential g q = (g.edges.length + 2) *
        (g.edges.length + 2) ^ (graphMaxTargetLen g + 1 - q.length - 1) := by
      unfold descPotential
      have he : graphMaxTargetLen g + 1 - q.length
          = (graphMaxTargetLen g + 1 - q.length - 1) + 1 := by omega
      rw [he, pow_succ]
      exact Nat.mul_comm _ _
    unfold stackPotential
    rw [← hch]
    have hmul : (childrenMap g q).length *
          (g.edges.length + 2) ^ (graphMaxTargetLen g + 1 - q.length - 1)
        < (g.edges.length + 2) *
          (g.edges.length + 2) ^ (graphMaxTargetLen g + 1 - q.length - 1) := by
      apply Nat.mul_lt_mul_of_lt_of_le (by omega) (le_refl _)
      exact hBpos
    omega

/-- With more fuel than the stack's potential, the loop finishes. -/
theorem descendantsAux_isSome {g : ModelGraph}
    (hlen : ∀ q c, c ∈ childrenMap g q → q.length < c.length) :
    ∀ (fuel : Nat) (stack : List Str) (acc : List GraphNode) (kf : Option Str),
      stackPotential g stack < fuel →
      (descendantsAux g kf fuel stack acc).isSome = true := by
  intro fuel
  induction fuel with
  | zero =>
    intro stack acc kf h
    omega
  | succ f ih =>
    intro stack acc kf h
    cases stack with
    | nil => simp [descendantsAux]
    | cons cq rest =>
      rw [stackPotential_cons] at h
      have hpos := descPotential_pos g cq
      cases hn : getNode g.nodes cq with
      | none =>
        simp only [descendantsAux, hn]
        exact ih rest acc kf (by omega)
      | some node =>
        simp only [descendantsAux, hn]
        apply ih
        rw [stackPotential_append, stackPotential_reverse]
        have := children_pot_lt hlen cq
        omega

/-- Everything the loop returns is reachable from the start along
`contains` edges. -/
theorem descendantsAux_sound {g : ModelGraph} {root : Str} :
    ∀ (fuel : Nat) (stack : List Str) (acc : List GraphNode) (kf : Option Str)
      (res : List GraphNode),
      (∀ q ∈ stack, ReachableViaContains g root q) →
      (∀ nd ∈ acc, ReachableViaContains g root nd.qname) →
      descendantsAux g kf fuel stack acc = some res →
      ∀ nd ∈ res, ReachableViaContains g root nd.qname := by
  intro fuel
  induction fuel with
  | zero =>
    intro stack acc kf res hstack hacc heq
    cases stack with
    | nil =>
      have hres : acc.reverse = res := Option.some.inj heq
      intro nd hnd
      rw [← hres] at hnd
      exact hacc nd (List.mem_reverse.mp hnd)
    | cons cq rest => cases heq
  | succ f ih =>
    intro stack acc kf res hstack hacc heq
    cases stack with
    | nil =>
      have hres : acc.reverse = res := Option.some.inj heq
      intro nd hnd
      rw [← hres] at hnd
      exact hacc nd (List.mem_reverse.mp hnd)
    | cons cq rest =>
      have hcq := hstack cq (List.mem_cons_self _ _)
      cases hn : getNode g.nodes cq with
      | none =>
        simp only [descendantsAux, hn] at heq
        exact ih rest acc kf res (fun q hq => hstack q (List.mem_cons_of_mem _ hq))
          hacc heq
      | some node =>
        have hnodeq : node.qname = cq := by
          unfold getNode at hn
          have := List.find?_some hn
          simpa using this
        simp only [descendantsAux, hn] at heq
        refine ih _ _ kf res ?_ ?_ heq
        · intro q hq
          rcases List.mem_append.mp hq with hq' | hq'
          · exact ReachableViaContains.step hcq (List.mem_reverse.mp hq')
          · exact hstack q (List.mem_cons_of_mem _ hq')
        · intro nd hnd
          split at hnd
          · rcases List.mem_cons.mp hnd with rfl | h'
            · rw [hnodeq]
              exact hcq
            · exact hacc nd h'
          · exact hacc nd hnd

/-- C10: on every graph built by `build_model_graph`, the
`descendants` stack loop halts — containment strictly lengthens
qualified names, so the traversal is well-founded — and it returns only
nodes reachable from the start qname via `contains` edges. -/
theorem descendants_terminates (elements : List ModelElement) (start : Str)
    (kindFilter : Option Str) :
    ∃ fuel res,
      descendantsFuel (buildModelGraph elements) kindFilter fuel start = some res ∧
        ∀ nd ∈ res, ReachableViaContains (buildModelGraph elements) start nd.qname := by
  have hlen : ∀ q c, c ∈ childrenMap (buildModelGraph elements) q → q.length < c.length :=
    fun q c hc => childrenMap_length hc
  refine ⟨stackPotential (buildModelGraph elements)
    ((childrenMap (buildModelGraph elements) start).reverse) + 1, ?_⟩
  have hsome := descendantsAux_isSome hlen _
    ((childrenMap (buildModelGraph elements) start).reverse) [] kindFilter
    (Nat.lt_succ_self _)
  obtain ⟨res, hres⟩ := Option.isSome_iff_exists.mp hsome
  refine ⟨res, hres, ?_⟩
  exact descendantsAux_sound _ _ _ kindFilter res
    (fun q hq => ReachableViaContains.child (List.mem_reverse.mp hq))
    (fun nd hnd => absurd hnd (List.not_mem_nil nd)) hres

end SysMLGen
